import Mathlib

/-!
# PolarPlot (ping-viewer, `src/waterfall/polarplot.cpp`)

A shallow embedding of the polar waterfall renderer: the distance ring, the
auto-ranged `_maxDistance`, the wedge painter `PolarPlot::draw`, `PolarPlot::clear`
and the cursor resolver `PolarPlot::updateMouseColumnData`.

Numbers.  The `float`/`double` values of the program are modelled by an
arbitrary linearly ordered field `α` with a floor function, with exact
arithmetic: no rounding, no infinities and no NaN, and the two float zeros are
identified.  The definitions are computable (instantiate `α := ℚ`), and the
theorems that need true trigonometry instantiate `α := ℝ` with `Real.cos`,
`Real.sin` and `Real.pi`.  The one division of `draw` whose divisor can be
zero is modelled with its IEEE result (see `insideRange`).

The sample index of lines 92 and 95 is the exception: its truncation sits on
values that are exact integers in exact arithmetic, so `linearFactor` and
`sampleIndex` round every operation to binary32 (`roundBinary32`, round to
nearest, ties to even), as single-precision evaluation without fused
multiply-add does.

External code.  The C math library (`cos`, `sin`, `atan2f`, `hypotf`), the
constant `M_PI` and the colour mapper `Waterfall::valueToRGB` are passed as
parameters.  Conversions to `int` and container accesses that are undefined
behaviour in C++ make the model return `none`.
-/

set_option linter.unusedSectionVars false

namespace PolarPlot

/-- A `QColor` given by its four 8-bit channels. -/
structure QColor where
  red : Nat
  green : Nat
  blue : Nat
  alpha : Nat
  deriving DecidableEq, Repr

/-- The colour `QColor(0, 0, 0, 0)`, which is also `Qt::transparent`. -/
def transparent : QColor := ⟨0, 0, 0, 0⟩

/-- A colour mapper that paints every sample solid white; it stands for
`Waterfall::valueToRGB` where a concrete mapper is needed. -/
def whiteMapper {α : Type} (_ : α) : QColor := ⟨255, 255, 255, 255⟩

/-- The pixels of a `QImage`, addressed by column `x` and row `y`. -/
abbrev QImage := Int → Int → QColor

/-- The constant `PolarPlot::_angularResolution` (line 15), promoted to `int` where it is
used. -/
def _angularResolution : Int := 400

/-- Width and height of `_image` as constructed (line 20). -/
def imageSize : Int := 2500

/-- The coordinate `center.x() = center.y() = _image.width()/2` (line 69). -/
def center : Nat := 2500 / 2

/-- The members of `PolarPlot` that `draw` and `clear` touch. -/
structure State (α : Type) where
  _distances : List α
  _image : QImage
  _maxDistance : α

/-- The cursor members inherited from `Waterfall` that the resolver touches. -/
structure Cursor (α : Type) where
  _mousePos : α × α
  _containsMouse : Bool
  _mouseSampleAngle : α
  _mouseSampleDistance : α

section Model

variable {α : Type} [LinearOrderedField α] [FloorRing α]

/-- The state left by the constructor (lines 17-27): 400 zero distances, a
transparent image and `_maxDistance = 0`. -/
def init : State α :=
  { _distances := List.replicate 400 0
    _image := fun _ _ => transparent
    _maxDistance := 0 }

/-- The method `PolarPlot::clear` (lines 36-42). -/
def clear (_s : State α) : State α :=
  { _distances := List.replicate 400 0
    _image := fun _ _ => transparent
    _maxDistance := 0 }

/-- Conversion of a floating value to `int`: truncation toward zero, undefined
(`none`) when the truncated value is not an `int`. -/
def castInt (x : α) : Option Int :=
  let t : Int := if 0 ≤ x then ⌊x⌋ else ⌈x⌉
  if -2147483648 ≤ t ∧ t ≤ 2147483647 then some t else none

/-- Qt's `qFuzzyCompare(float, float)`:
`qAbs(p1 - p2) * 100000.f <= qMin(qAbs(p1), qAbs(p2))`. -/
def qFuzzyCompare (p1 p2 : α) : Bool :=
  decide (|p1 - p2| * 100000 ≤ min |p1| |p2|)

/-- The value `*std::max_element(begin, end)`: the first largest element,
undefined on an empty range. -/
def maxElement : List α → Option α
  | [] => none
  | x :: xs => some (xs.foldl (fun largest y => if largest < y then y else largest) x)

/-- Line 83: `_distances[static_cast<int>(angle) % _angularResolution] = value`.
The remainder is the truncating `%` of C++; an index outside the vector is
undefined. -/
def setDistance (distances : List α) (angle value : α) : Option (List α) :=
  match castInt angle with
  | none => none
  | some a =>
    let idx := Int.tmod a _angularResolution
    if 0 ≤ idx ∧ idx < distances.length then some (distances.set idx.toNat value) else none

/-- Lines 87-90: `_maxDistance` takes the new maximum unless the two compare
fuzzily equal. -/
def updateMaxDistance (maxDistance _maxDistance : α) : α :=
  if !qFuzzyCompare maxDistance _maxDistance then maxDistance else _maxDistance

/-- Rounding to the nearest integer, ties to the even one. -/
def roundHalfEven (q : α) : Int :=
  if q - (⌊q⌋ : α) < 1 / 2 then ⌊q⌋
  else if 1 / 2 < q - (⌊q⌋ : α) then ⌊q⌋ + 1
  else if ⌊q⌋ % 2 = 0 then ⌊q⌋ else ⌊q⌋ + 1

/-- The unit in the last place of binary32 at `x`: `2^(e − 23)` for
`2^e ≤ |x| < 2^(e+1)`, and `2^(−149)` below the normal range. -/
def binary32Ulp (x : α) : α := (2 : α) ^ (max (Int.log 2 |x|) (-126) - 23)

/-- The binary32 (`float`) value nearest to `x`, ties to even: the result of a
single-precision operation whose exact result is `x`, and of the conversion
of an `int` to `float`.  Overflow to infinity (`|x| ≥ 2^128`) is not
modelled. -/
def roundBinary32 (x : α) : α := (roundHalfEven (x / binary32Ulp x) : α) * binary32Ulp x

/-- Line 92: `linearFactor = points.size() / (float) center.x()`: the size is
converted to `float`, `(float) center.x()` is `1250` exactly, and the quotient
is rounded to `float`. -/
def linearFactor (points : List α) : α :=
  roundBinary32 (roundBinary32 (points.length : α) / (center : α))

/-- Line 94: the test `i < center.x() * length / _maxDistance`.  For a zero
divisor the quotient is `+inf` when the dividend is positive (the test holds)
and `-inf` or NaN otherwise (the test fails). -/
def insideRange (i : Nat) (length _maxDistance : α) : Bool :=
  if _maxDistance = 0 then decide (0 < (center : α) * length)
  else decide ((i : α) < (center : α) * length / _maxDistance)

/-- Line 95: the index `static_cast<int>(i * linearFactor - 1)`: `i` and `1` are
exact as `float`, the product and the difference are each rounded to `float`,
and the result is truncated. -/
def sampleIndex (points : List α) (i : Nat) : Option Int :=
  castInt (roundBinary32 (roundBinary32 ((i : α) * linearFactor points) - 1))

/-- Lines 94-98: the colour of radius `i`.  Reading `points` outside its
bounds is undefined. -/
def pointColor (valueToRGB : α → QColor) (points : List α) (length _maxDistance : α)
    (i : Nat) : Option QColor :=
  if insideRange i length _maxDistance then
    match sampleIndex points i with
    | none => none
    | some j => if 0 ≤ j then (points[j.toNat]?).map valueToRGB else none
  else some transparent

/-- Line 100: `step = ceil(i * degreeToRadianTimesAngleGradTimes2)`. -/
def step (pi angleGrad : α) (i : Nat) : Int :=
  ⌈(i : α) * (2 * (pi / 180) * angleGrad)⌉

/-- Lines 101-106: the angle `angleStep` of substep `currentStep` at radius `i`. -/
def angleStep (pi angle angleGrad : α) (i currentStep : Nat) : α :=
  let degreeToRadian : α := pi / 180
  let gradianToDegree : α := 180 / 200
  let gradianToRadian : α := pi / 200
  let angleResolution : α := gradianToDegree / 2
  let resultionTimesAngleGradTimes2 : α := 2 * angleResolution * angleGrad
  let actualAngle : α := angle * gradianToRadian
  let halfstep : α := (step pi angleGrad i : α) / 2
  let deltaDrgree_A : α := resultionTimesAngleGradTimes2 / (step pi angleGrad i : α)
  let deltaDegree : α := deltaDrgree_A * ((currentStep : α) - halfstep)
  deltaDegree * degreeToRadian + actualAngle - pi / 2

/-- The angle `θ_k` as the specification writes it (section 4.1, effect 3):
`(angle_grad·π/200) − π/2 + (angleGrad_width/200·π) · ((2k − step)/step)`. -/
def specTheta (pi angle angleGrad : α) (stepCount : Int) (k : Nat) : α :=
  angle * pi / 200 - pi / 2
    + angleGrad / 200 * pi * ((2 * (k : α) - (stepCount : α)) / (stepCount : α))

/-- Qt's `QImage::setPixelColor` on the 2500 × 2500 image: a coordinate outside
the image is ignored (Qt only warns).  Colours are taken to be valid. -/
def setPixelColor (img : QImage) (x y : Int) (c : QColor) : QImage :=
  if 0 ≤ x ∧ x < imageSize ∧ 0 ≤ y ∧ y < imageSize then
    fun u v => if u = x ∧ v = y then c else img u v
  else img

/-- Lines 105-107: one pass of the inner loop. -/
def paintStep (pi : α) (cos sin : α → α) (angle angleGrad : α) (i : Nat) (c : QColor)
    (img : QImage) (currentStep : Nat) : Option QImage :=
  match castInt ((center : α) + (i : α) * cos (angleStep pi angle angleGrad i currentStep)),
        castInt ((center : α) + (i : α) * sin (angleStep pi angle angleGrad i currentStep)) with
  | some x, some y => some (setPixelColor img x y c)
  | _, _ => none

/-- Lines 94-108: one pass of the outer loop.  The `int` counter of the inner
loop overflows when `step` exceeds `INT_MAX`. -/
def paintRadius (pi : α) (cos sin : α → α) (valueToRGB : α → QColor) (points : List α)
    (angle length angleGrad _maxDistance : α) (img : QImage) (i : Nat) : Option QImage :=
  match pointColor valueToRGB points length _maxDistance i with
  | none => none
  | some c =>
    if 2147483647 < step pi angleGrad i then none
    else (List.range (step pi angleGrad i).toNat).foldlM
      (paintStep pi cos sin angle angleGrad i c) img

/-- Lines 93-109: the loop `for (int i = 1; i < center.x(); i++)`. -/
def paint (pi : α) (cos sin : α → α) (valueToRGB : α → QColor) (points : List α)
    (angle length angleGrad _maxDistance : α) (img : QImage) : Option QImage :=
  (List.range' 1 (center - 1)).foldlM
    (paintRadius pi cos sin valueToRGB points angle length angleGrad _maxDistance) img

/-- The method `PolarPlot::draw` (lines 64-115): the ring write, the update of
`_maxDistance`, then the painting.  The signal `maxDistanceChanged` and the
repaint timer are not modelled. -/
def draw (pi : α) (cos sin : α → α) (valueToRGB : α → QColor) (points : List α)
    (angle initPoint length angleGrad : α) (s : State α) : Option (State α) :=
  match setDistance s._distances angle (initPoint + length) with
  | none => none
  | some distances =>
    match maxElement distances with
    | none => none
    | some maxDistance =>
      let newMax := updateMaxDistance maxDistance s._maxDistance
      match paint pi cos sin valueToRGB points angle length angleGrad newMax s._image with
      | none => none
      | some image => some { _distances := distances, _image := image, _maxDistance := newMax }

/-- Line 130: `delta = 2*(_mousePos - center)/std::min(width(), height())`.  A view
whose smaller side is 0 makes the C++ quotient infinite or NaN and is outside
the model. -/
def delta (width height : α) (mousePos : α × α) : α × α :=
  (2 * (mousePos.1 - width / 2) / min width height,
   2 * (mousePos.2 - height / 2) / min width height)

/-- Line 140: `static_cast<int>(atan2f(-delta.x(), delta.y())*rad2grad + 200) % 400`. -/
def grad (pi : α) (atan2f : α → α → α) (d : α × α) : Option Int :=
  (castInt (atan2f (-d.1) d.2 * (200 / pi) + 200)).map (fun g => Int.tmod g 400)

/-- The method `PolarPlot::updateMouseColumnData` (lines 117-148), without its
signals.  `atan2f(y, x)` and `hypotf(x, y)` are parameters. -/
def updateMouseColumnData (pi : α) (atan2f hypotf : α → α → α) (width height _maxDistance : α)
    (w : Cursor α) : Option (Cursor α) :=
  let d := delta width height w._mousePos
  if hypotf d.1 d.2 > 1 then some { w with _containsMouse := false }
  else
    match grad pi atan2f d with
    | none => none
    | some g =>
      some { w with
        _mouseSampleAngle := (g : α) * (180 / 200)
        _mouseSampleDistance := hypotf d.1 d.2 * _maxDistance * (1 / 1000) }

/-- The pixel writes of one `draw`: colour `c` is written at `(u, v)` by some
substep `k` of some radius `i`. -/
def Written (pi : α) (cos sin : α → α) (valueToRGB : α → QColor) (points : List α)
    (angle length angleGrad _maxDistance : α) (u v : Int) (c : QColor) : Prop :=
  ∃ i k : Nat, 1 ≤ i ∧ i < center ∧ (k : Int) < step pi angleGrad i ∧
    pointColor valueToRGB points length _maxDistance i = some c ∧
    castInt ((center : α) + (i : α) * cos (angleStep pi angle angleGrad i k)) = some u ∧
    castInt ((center : α) + (i : α) * sin (angleStep pi angle angleGrad i k)) = some v

/-- The sample index as the specification writes it (section 4.1, effect 1):
`⌊i · P / (R/2)⌋ − 1` clamped to `[0, P − 1]`, in exact arithmetic. -/
def specSampleIndex (points : List α) (i : Nat) : Int :=
  max 0 (min (⌊(i : α) * (points.length : α) / (center : α)⌋ - 1) ((points.length : Int) - 1))

/-- The bin as the specification writes it (section 4.5, step 4):
`(⌊atan2(−δ_x, δ_y) · 200/π⌋ + 200) mod 400`. -/
def specGrad (pi : α) (atan2f : α → α → α) (d : α × α) : Int :=
  (⌊atan2f (-d.1) d.2 * 200 / pi⌋ + 200) % 400

/-- The remainder `x mod 360` of an angle in degrees, as the specification
uses it in its cursor-inverse property. -/
def mod360 (x : α) : α := x - 360 * (⌊x / 360⌋ : α)

/-- States reachable from the constructor by `clear` and by `draw` calls whose
`initPoint` and `length` satisfy `ok`. -/
inductive ReachableWith (pi : α) (cos sin : α → α) (valueToRGB : α → QColor)
    (ok : α → α → Prop) : State α → Prop
  | init : ReachableWith pi cos sin valueToRGB ok init
  | clear {s : State α} : ReachableWith pi cos sin valueToRGB ok s →
      ReachableWith pi cos sin valueToRGB ok (clear s)
  | draw {s s' : State α} {points : List α} {angle initPoint length angleGrad : α} :
      ReachableWith pi cos sin valueToRGB ok s → ok initPoint length →
      draw pi cos sin valueToRGB points angle initPoint length angleGrad s = some s' →
      ReachableWith pi cos sin valueToRGB ok s'

/-- States reachable from the constructor by any `draw` and `clear` calls. -/
def Reachable (pi : α) (cos sin : α → α) (valueToRGB : α → QColor) (s : State α) : Prop :=
  ReachableWith pi cos sin valueToRGB (fun _ _ => True) s

end Model

section Lemmas

variable {α : Type} [LinearOrderedField α] [FloorRing α]

/-! ### Conversions to `int` -/

lemma castInt_eq_some {x : α} {t : Int} (h : castInt x = some t) :
    t = (if 0 ≤ x then ⌊x⌋ else ⌈x⌉) ∧ -2147483648 ≤ t ∧ t ≤ 2147483647 := by
  unfold castInt at h
  simp only at h
  split_ifs at h with h1 h2 h3
  · simp only [Option.some.injEq] at h
    subst h
    simp [h1, h2.1, h2.2]
  · simp only [Option.some.injEq] at h
    subst h
    simp [h1, h3.1, h3.2]

lemma castInt_of_nonneg {x : α} (h0 : 0 ≤ x) (h1 : ⌊x⌋ ≤ 2147483647) :
    castInt x = some ⌊x⌋ := by
  have hf : 0 ≤ ⌊x⌋ := Int.floor_nonneg.mpr h0
  unfold castInt
  simp only [h0, if_true]
  rw [if_pos]
  exact ⟨by linarith, h1⟩

lemma castInt_of_neg {x : α} (h0 : x < 0) (h1 : -2147483648 ≤ ⌈x⌉) :
    castInt x = some ⌈x⌉ := by
  have hc : ⌈x⌉ ≤ 0 := Int.ceil_le.mpr (by exact_mod_cast h0.le)
  unfold castInt
  simp only [not_le.mpr h0, if_false]
  rw [if_pos]
  exact ⟨h1, by linarith⟩

/-! ### Rounding to binary32 -/

lemma binary32Ulp_pos (x : α) : 0 < binary32Ulp x := by
  unfold binary32Ulp
  positivity

lemma roundHalfEven_err (q : α) : |((roundHalfEven q : Int) : α) - q| ≤ 1 / 2 := by
  have h1 : ((⌊q⌋ : Int) : α) ≤ q := Int.floor_le q
  have h2 : q < ((⌊q⌋ : Int) : α) + 1 := Int.lt_floor_add_one q
  unfold roundHalfEven
  split_ifs with ha hb hc
  · rw [abs_le]
    constructor <;> linarith
  · rw [abs_le]
    push_cast
    constructor <;> linarith
  · rw [abs_le]
    have : q - (⌊q⌋ : α) = 1 / 2 := le_antisymm (not_lt.mp hb) (not_lt.mp ha)
    constructor <;> linarith
  · rw [abs_le]
    push_cast
    have : q - (⌊q⌋ : α) = 1 / 2 := le_antisymm (not_lt.mp hb) (not_lt.mp ha)
    constructor <;> linarith

lemma roundHalfEven_eq {q : α} {n : Int} (h : |q - (n : α)| < 1 / 2) : roundHalfEven q = n := by
  obtain ⟨h1, h2⟩ := abs_lt.mp h
  rcases le_or_lt (n : α) q with hq | hq
  · have hf : ⌊q⌋ = n := by
      rw [Int.floor_eq_iff]
      constructor <;> linarith
    unfold roundHalfEven
    rw [hf, if_pos (by linarith)]
  · have hf : ⌊q⌋ = n - 1 := by
      rw [Int.floor_eq_iff]
      push_cast
      constructor <;> linarith
    unfold roundHalfEven
    rw [hf, if_neg (by push_cast; linarith), if_pos (by push_cast; linarith)]
    ring

lemma roundBinary32_zero : roundBinary32 (0 : α) = 0 := by
  have h : roundHalfEven ((0 : α) / binary32Ulp 0) = 0 := by
    apply roundHalfEven_eq
    simp
  unfold roundBinary32
  rw [h]
  simp

/-- The rounding error is at most half a unit in the last place: `2⁻²⁴ |x|` for
a normal `x`, `2⁻¹⁵⁰` for a subnormal one. -/
lemma roundBinary32_err (x : α) :
    |roundBinary32 x - x| ≤ |x| / 16777216 + 1 / 1000000000 := by
  rcases eq_or_ne x 0 with h0 | h0
  · rw [h0, roundBinary32_zero]
    simp
  have hU := binary32Ulp_pos x
  have hx : 0 < |x| := abs_pos.mpr h0
  have herr := roundHalfEven_err (x / binary32Ulp x)
  have e : roundBinary32 x - x
      = (((roundHalfEven (x / binary32Ulp x) : Int) : α) - x / binary32Ulp x)
        * binary32Ulp x := by
    unfold roundBinary32
    field_simp
  have hhalf : |roundBinary32 x - x| ≤ binary32Ulp x / 2 := by
    rw [e, abs_mul, abs_of_pos hU]
    nlinarith
  have hlog : (2 : α) ^ Int.log 2 |x| ≤ |x| := by
    have := Int.zpow_log_le_self (b := 2) (by norm_num) hx
    simpa using this
  have hulp : binary32Ulp x / 2 ≤ |x| / 16777216 + 1 / 1000000000 := by
    unfold binary32Ulp
    rcases le_total (Int.log 2 |x|) (-126) with hle | hge
    · rw [max_eq_right hle]
      have : (2 : α) ^ ((-126 : Int) - 23) ≤ 1 / 1000000000 := by norm_num
      have hxx : 0 ≤ |x| / 16777216 := by positivity
      linarith
    · rw [max_eq_left hge, zpow_sub₀ (by norm_num : (2 : α) ≠ 0)]
      have e23 : (2 : α) ^ (23 : Int) = 8388608 := by norm_num
      rw [e23]
      linarith
  exact le_trans hhalf hulp

lemma roundBinary32_le {x : α} (hx : 0 ≤ x) :
    roundBinary32 x ≤ x * (16777217 / 16777216) + 1 / 1000000000 := by
  have h := (abs_le.mp (roundBinary32_err x)).2
  rw [abs_of_nonneg hx] at h
  linarith

lemma roundBinary32_ge {x : α} (hx : 0 ≤ x) :
    x * (16777215 / 16777216) - 1 / 1000000000 ≤ roundBinary32 x := by
  have h := (abs_le.mp (roundBinary32_err x)).1
  rw [abs_of_nonneg hx] at h
  linarith

/-- The value of `roundBinary32` at `x` in the binade `[2^e, 2^(e+1))`, given
the integer `n` nearest to `x / 2^(e-23)`. -/
lemma roundBinary32_eq {x : α} (e n : Int) (h1 : (2 : α) ^ e ≤ |x|)
    (h2 : |x| < (2 : α) ^ (e + 1)) (h3 : -126 ≤ e)
    (h4 : |x / (2 : α) ^ (e - 23) - (n : α)| < 1 / 2) :
    roundBinary32 x = (n : α) * (2 : α) ^ (e - 23) := by
  have hx : 0 < |x| := lt_of_lt_of_le (by positivity) h1
  have hlog : Int.log 2 |x| = e := by
    apply le_antisymm
    · have := (Int.lt_zpow_iff_log_lt (b := 2) (by norm_num) hx).mp (by simpa using h2)
      omega
    · exact (Int.zpow_le_iff_le_log (b := 2) (by norm_num) hx).mp (by simpa using h1)
  have hu : binary32Ulp x = (2 : α) ^ (e - 23) := by
    unfold binary32Ulp
    rw [hlog, max_eq_left h3]
  unfold roundBinary32
  rw [hu, roundHalfEven_eq h4]

/-! ### The distance ring -/

lemma foldl_largest (xs : List α) (x : α) :
    (xs.foldl (fun largest y => if largest < y then y else largest) x ∈ x :: xs) ∧
    ∀ d ∈ x :: xs, d ≤ xs.foldl (fun largest y => if largest < y then y else largest) x := by
  induction xs generalizing x with
  | nil => simp
  | cons y ys ih =>
    simp only [List.foldl_cons]
    obtain ⟨hm, hle⟩ := ih (if x < y then y else x)
    refine ⟨?_, ?_⟩
    · rcases List.mem_cons.mp hm with h | h
      · rw [h]
        split_ifs <;> simp
      · exact List.mem_cons_of_mem _ (List.mem_cons_of_mem _ h)
    · intro d hd
      have hx : x ≤ (if x < y then y else x) := by
        split_ifs with h
        · exact le_of_lt h
        · exact le_refl x
      have hy : y ≤ (if x < y then y else x) := by
        split_ifs with h
        · exact le_refl y
        · exact not_lt.mp h
      have htop := hle _ (List.mem_cons_self _ _)
      rcases List.mem_cons.mp hd with h | h
      · rw [h]
        exact le_trans hx htop
      · rcases List.mem_cons.mp h with h | h
        · rw [h]
          exact le_trans hy htop
        · exact hle d (List.mem_cons_of_mem _ h)

lemma maxElement_spec {l : List α} {m : α} (h : maxElement l = some m) :
    m ∈ l ∧ ∀ d ∈ l, d ≤ m := by
  cases l with
  | nil => simp [maxElement] at h
  | cons x xs =>
    simp only [maxElement, Option.some.injEq] at h
    subst h
    exact foldl_largest xs x

lemma maxElement_isSome {l : List α} (h : l ≠ []) : ∃ m, maxElement l = some m := by
  cases l with
  | nil => exact absurd rfl h
  | cons x xs => exact ⟨_, rfl⟩

lemma maxElement_eq_of {l : List α} {m : α} (hm : m ∈ l) (hle : ∀ d ∈ l, d ≤ m) :
    maxElement l = some m := by
  have hne : l ≠ [] := List.ne_nil_of_mem hm
  obtain ⟨m', h'⟩ := maxElement_isSome hne
  obtain ⟨hm', hle'⟩ := maxElement_spec h'
  rw [h', le_antisymm (hle' m hm) (hle m' hm')]

lemma setDistance_of_nonneg (distances : List α) (angle value : α)
    (hlen : distances.length = 400) (h0 : 0 ≤ angle) (h1 : ⌊angle⌋ ≤ 2147483647) :
    setDistance distances angle value
      = some (distances.set (⌊angle⌋ % 400).toNat value) := by
  have hf : 0 ≤ ⌊angle⌋ := Int.floor_nonneg.mpr h0
  have hmod : Int.tmod ⌊angle⌋ 400 = ⌊angle⌋ % 400 := Int.tmod_eq_emod hf (by norm_num)
  have hnn : 0 ≤ ⌊angle⌋ % 400 := Int.emod_nonneg _ (by norm_num)
  have hlt : ⌊angle⌋ % 400 < 400 := Int.emod_lt_of_pos _ (by norm_num)
  unfold setDistance
  rw [castInt_of_nonneg h0 h1]
  simp only [_angularResolution, hmod, hlen]
  rw [if_pos ⟨hnn, by exact_mod_cast hlt⟩]

lemma setDistance_length {distances distances' : List α} {angle value : α}
    (h : setDistance distances angle value = some distances') :
    distances'.length = distances.length := by
  unfold setDistance at h
  cases hc : castInt angle with
  | none => simp [hc] at h
  | some a =>
    simp only [hc] at h
    split_ifs at h
    simp only [Option.some.injEq] at h
    rw [← h, List.length_set]

/-- What a successful `draw` consists of. -/
lemma draw_eq_some {pi : α} {cos sin : α → α} {valueToRGB : α → QColor} {points : List α}
    {angle initPoint length angleGrad : α} {s s' : State α}
    (h : draw pi cos sin valueToRGB points angle initPoint length angleGrad s = some s') :
    ∃ maxDistance,
      setDistance s._distances angle (initPoint + length) = some s'._distances ∧
      maxElement s'._distances = some maxDistance ∧
      s'._maxDistance = updateMaxDistance maxDistance s._maxDistance ∧
      paint pi cos sin valueToRGB points angle length angleGrad s'._maxDistance s._image
        = some s'._image := by
  unfold draw at h
  cases h1 : setDistance s._distances angle (initPoint + length) with
  | none => simp [h1] at h
  | some distances =>
    simp only [h1] at h
    cases h2 : maxElement distances with
    | none => simp [h2] at h
    | some maxDistance =>
      simp only [h2] at h
      cases h3 : paint pi cos sin valueToRGB points angle length angleGrad
          (updateMaxDistance maxDistance s._maxDistance) s._image with
      | none => simp [h3] at h
      | some image =>
        simp only [h3, Option.some.injEq] at h
        subst h
        exact ⟨maxDistance, rfl, h2, rfl, h3⟩

/-- A `draw` succeeds as soon as its three stages do. -/
lemma draw_of_stages {pi : α} {cos sin : α → α} {valueToRGB : α → QColor} {points : List α}
    {angle initPoint length angleGrad : α} {s : State α} {distances : List α} {maxDistance : α}
    {image : QImage}
    (h1 : setDistance s._distances angle (initPoint + length) = some distances)
    (h2 : maxElement distances = some maxDistance)
    (h3 : paint pi cos sin valueToRGB points angle length angleGrad
      (updateMaxDistance maxDistance s._maxDistance) s._image = some image) :
    draw pi cos sin valueToRGB points angle initPoint length angleGrad s
      = some { _distances := distances, _image := image,
               _maxDistance := updateMaxDistance maxDistance s._maxDistance } := by
  unfold draw
  simp only [h1, h2, h3]

lemma reachable_length {pi : α} {cos sin : α → α} {valueToRGB : α → QColor}
    {ok : α → α → Prop} {s : State α} (h : ReachableWith pi cos sin valueToRGB ok s) :
    s._distances.length = 400 := by
  induction h with
  | init => simp only [init, List.length_replicate]
  | clear _ _ => simp only [clear, List.length_replicate]
  | draw _ _ hd ih =>
    obtain ⟨m, h1, -⟩ := draw_eq_some hd
    rw [setDistance_length h1, ih]

/-! ### Folds in `Option` -/

lemma foldlM_rel {β γ : Type} (f : β → γ → Option β) (R : β → β → Prop)
    (hrefl : ∀ b, R b b) (htrans : ∀ a b c, R a b → R b c → R a c)
    (l : List γ) (hstep : ∀ a ∈ l, ∀ b b', f b a = some b' → R b b')
    (b b' : β) (h : l.foldlM f b = some b') : R b b' := by
  induction l generalizing b with
  | nil =>
    simp only [List.foldlM_nil, Option.pure_def, Option.some.injEq] at h
    subst h
    exact hrefl b
  | cons a l ih =>
    simp only [List.foldlM_cons, Option.bind_eq_bind, Option.bind_eq_some] at h
    obtain ⟨b1, h1, h2⟩ := h
    exact htrans _ _ _ (hstep a (List.mem_cons_self _ _) b b1 h1)
      (ih (fun a' ha' => hstep a' (List.mem_cons_of_mem _ ha')) b1 h2)

lemma foldlM_isSome {β γ : Type} (f : β → γ → Option β)
    (l : List γ) (hstep : ∀ a ∈ l, ∀ b, ∃ b', f b a = some b') (b : β) :
    ∃ b', l.foldlM f b = some b' := by
  induction l generalizing b with
  | nil => exact ⟨b, rfl⟩
  | cons a l ih =>
    obtain ⟨b1, h1⟩ := hstep a (List.mem_cons_self _ _) b
    obtain ⟨b2, h2⟩ := ih (fun a' ha' => hstep a' (List.mem_cons_of_mem _ ha')) b1
    exact ⟨b2, by simp only [List.foldlM_cons, Option.bind_eq_bind, h1, Option.some_bind, h2]⟩

lemma foldlM_concat {β γ : Type} (f : β → γ → Option β) (l : List γ) (a : γ) (b b' : β)
    (h : (l ++ [a]).foldlM f b = some b') :
    ∃ b1, l.foldlM f b = some b1 ∧ f b1 a = some b' := by
  rw [List.foldlM_append] at h
  simp only [Option.bind_eq_bind, Option.bind_eq_some] at h
  obtain ⟨b1, h1, h2⟩ := h
  refine ⟨b1, h1, ?_⟩
  simp only [List.foldlM_cons, List.foldlM_nil, Option.bind_eq_bind, Option.bind_eq_some] at h2
  obtain ⟨b2, h3, h4⟩ := h2
  simp only [Option.pure_def, Option.some.injEq] at h4
  rw [← h4]
  exact h3

/-! ### The painter -/

lemma pixel_cast {c : α} {i : Nat} (hc : |c| ≤ 1) (hi1 : 1 ≤ i) (hi : i < center) :
    castInt ((center : α) + (i : α) * c) = some ⌊(center : α) + (i : α) * c⌋ ∧
      1 ≤ ⌊(center : α) + (i : α) * c⌋ ∧ ⌊(center : α) + (i : α) * c⌋ ≤ 2499 := by
  obtain ⟨hlo, hhi⟩ := abs_le.mp hc
  have hi' : (i : α) ≤ 1249 := by
    have : i ≤ 1249 := by
      simp only [center] at hi
      omega
    exact_mod_cast this
  have hi0 : (0 : α) ≤ (i : α) := Nat.cast_nonneg i
  have hcen : ((center : Nat) : α) = 1250 := by
    simp only [center]
    norm_num
  have h1 : (i : α) * c ≤ 1249 := by nlinarith
  have h2 : -1249 ≤ (i : α) * c := by nlinarith
  have hge : (1 : α) ≤ (center : α) + (i : α) * c := by rw [hcen]; linarith
  have hle : (center : α) + (i : α) * c < 2500 := by rw [hcen]; linarith
  have hf1 : 1 ≤ ⌊(center : α) + (i : α) * c⌋ := Int.le_floor.mpr (by exact_mod_cast hge)
  have hf2 : ⌊(center : α) + (i : α) * c⌋ ≤ 2499 := by
    have : ⌊(center : α) + (i : α) * c⌋ < 2500 := Int.floor_lt.mpr (by exact_mod_cast hle)
    omega
  exact ⟨castInt_of_nonneg (by linarith) (by omega), hf1, hf2⟩

lemma paintStep_eq_some {pi : α} {cos sin : α → α} {angle angleGrad : α} {i : Nat} {c : QColor}
    {img img' : QImage} {k : Nat}
    (h : paintStep pi cos sin angle angleGrad i c img k = some img') :
    ∃ x y, castInt ((center : α) + (i : α) * cos (angleStep pi angle angleGrad i k)) = some x ∧
      castInt ((center : α) + (i : α) * sin (angleStep pi angle angleGrad i k)) = some y ∧
      img' = setPixelColor img x y c := by
  unfold paintStep at h
  cases hx : castInt ((center : α) + (i : α) * cos (angleStep pi angle angleGrad i k)) with
  | none => simp [hx] at h
  | some x =>
    cases hy : castInt ((center : α) + (i : α) * sin (angleStep pi angle angleGrad i k)) with
    | none => simp [hx, hy] at h
    | some y =>
      simp only [hx, hy, Option.some.injEq] at h
      exact ⟨x, y, rfl, rfl, h.symm⟩

lemma setPixelColor_apply (img : QImage) (x y : Int) (c : QColor) (u v : Int) :
    setPixelColor img x y c u v = img u v ∨
      (u = x ∧ v = y ∧ setPixelColor img x y c u v = c) := by
  unfold setPixelColor
  split_ifs with h
  · by_cases huv : u = x ∧ v = y
    · right
      exact ⟨huv.1, huv.2, by simp [huv]⟩
    · left
      simp [huv]
  · left
    rfl

lemma setPixelColor_self (img : QImage) (x y : Int) (c : QColor)
    (hx0 : 0 ≤ x) (hx : x < 2500) (hy0 : 0 ≤ y) (hy : y < 2500) :
    setPixelColor img x y c x y = c := by
  unfold setPixelColor
  rw [if_pos ⟨hx0, by simpa [imageSize] using hx, hy0, by simpa [imageSize] using hy⟩]
  simp

lemma paintRadius_eq_some {pi : α} {cos sin : α → α} {valueToRGB : α → QColor}
    {points : List α} {angle length angleGrad maxD : α} {img img' : QImage} {i : Nat}
    (h : paintRadius pi cos sin valueToRGB points angle length angleGrad maxD img i = some img') :
    ∃ c, pointColor valueToRGB points length maxD i = some c ∧
      step pi angleGrad i ≤ 2147483647 ∧
      (List.range (step pi angleGrad i).toNat).foldlM
        (paintStep pi cos sin angle angleGrad i c) img = some img' := by
  unfold paintRadius at h
  cases hc : pointColor valueToRGB points length maxD i with
  | none => simp [hc] at h
  | some c =>
    simp only [hc] at h
    split_ifs at h with hs
    exact ⟨c, rfl, not_lt.mp hs, h⟩

/-- Every pixel of the image that `paint` returns is either the pixel it was
or the colour of one of the writes of this call. -/
lemma paint_written {pi : α} {cos sin : α → α} {valueToRGB : α → QColor}
    {points : List α} {angle length angleGrad maxD : α} {img img' : QImage}
    (h : paint pi cos sin valueToRGB points angle length angleGrad maxD img = some img')
    (u v : Int) :
    img' u v = img u v ∨
      Written pi cos sin valueToRGB points angle length angleGrad maxD u v (img' u v) := by
  have key := foldlM_rel
    (paintRadius pi cos sin valueToRGB points angle length angleGrad maxD)
    (fun a b => ∀ u v, b u v = a u v ∨
      Written pi cos sin valueToRGB points angle length angleGrad maxD u v (b u v))
    (fun b u v => Or.inl rfl)
    (fun a b c hab hbc u v => by
      rcases hbc u v with h1 | h1
      · rcases hab u v with h2 | h2
        · left
          rw [h1, h2]
        · right
          rw [h1]
          exact h2
      · right
        exact h1)
    (List.range' 1 (center - 1))
    (fun i hi b b' hb => by
      obtain ⟨c, hc, hs, hf⟩ := paintRadius_eq_some hb
      have hi' := List.mem_range'_1.mp hi
      have hi1 : 1 ≤ i := hi'.1
      have hi2 : i < center := by
        have := hi'.2
        simp only [center] at this ⊢
        omega
      exact foldlM_rel (paintStep pi cos sin angle angleGrad i c)
        (fun a b => ∀ u v, b u v = a u v ∨
          Written pi cos sin valueToRGB points angle length angleGrad maxD u v (b u v))
        (fun b u v => Or.inl rfl)
        (fun a b c hab hbc u v => by
          rcases hbc u v with h1 | h1
          · rcases hab u v with h2 | h2
            · left
              rw [h1, h2]
            · right
              rw [h1]
              exact h2
          · right
            exact h1)
        (List.range (step pi angleGrad i).toNat)
        (fun k hk a a' ha u v => by
          obtain ⟨x, y, hx, hy, rfl⟩ := paintStep_eq_some ha
          rcases setPixelColor_apply a x y c u v with h1 | ⟨hu, hv, h1⟩
          · left
            exact h1
          · right
            rw [h1]
            refine ⟨i, k, hi1, hi2, ?_, hc, ?_, ?_⟩
            · have := List.mem_range.mp hk
              omega
            · rw [hu]
              exact hx
            · rw [hv]
              exact hy)
        b b' hf)
    img img' h
  exact key u v

/-- The painter succeeds when every radius has a colour, no step count
overflows and the cosine and sine stay in `[-1, 1]`. -/
lemma paint_isSome {pi : α} {cos sin : α → α} {valueToRGB : α → QColor}
    {points : List α} (angle : α) {length angleGrad maxD : α}
    (hcol : ∀ i, 1 ≤ i → i < center → ∃ c, pointColor valueToRGB points length maxD i = some c)
    (hstep : ∀ i, 1 ≤ i → i < center → step pi angleGrad i ≤ 2147483647)
    (hcos : ∀ x, |cos x| ≤ 1) (hsin : ∀ x, |sin x| ≤ 1) (img : QImage) :
    ∃ img', paint pi cos sin valueToRGB points angle length angleGrad maxD img = some img' := by
  unfold paint
  apply foldlM_isSome
  intro i hi b
  have hi' := List.mem_range'_1.mp hi
  have hi1 : 1 ≤ i := hi'.1
  have hi2 : i < center := by
    have := hi'.2
    simp only [center] at this ⊢
    omega
  obtain ⟨c, hc⟩ := hcol i hi1 hi2
  unfold paintRadius
  simp only [hc]
  rw [if_neg (not_lt.mpr (hstep i hi1 hi2))]
  apply foldlM_isSome
  intro k _ a
  unfold paintStep
  rw [(pixel_cast (hcos _) hi1 hi2).1, (pixel_cast (hsin _) hi1 hi2).1]
  exact ⟨_, rfl⟩

/-- The rounded value `fl(fl(i · linearFactor) − 1)` that line 95 truncates is
below `P`, below `P − 1` when `P ≥ 2`, and above `-1` when `i ≥ 1`. -/
lemma sampleIndex_value {points : List α} {i : Nat} (hp : points ≠ []) (hi2 : i < center) :
    roundBinary32 (roundBinary32 ((i : α) * linearFactor points) - 1) < (points.length : α) ∧
    (2 ≤ points.length →
      roundBinary32 (roundBinary32 ((i : α) * linearFactor points) - 1)
        < (points.length : α) - 1) ∧
    (1 ≤ i → -1 < roundBinary32 (roundBinary32 ((i : α) * linearFactor points) - 1)) := by
  have hlen : 0 < points.length := List.length_pos.mpr hp
  have hP1 : (1 : α) ≤ (points.length : α) := by exact_mod_cast hlen
  have hi' : (i : α) ≤ 1249 := by
    have : i ≤ 1249 := by
      simp only [center] at hi2
      omega
    exact_mod_cast this
  have hi0 : (0 : α) ≤ (i : α) := Nat.cast_nonneg i
  have hcen : ((center : Nat) : α) = 1250 := by
    simp only [center]
    norm_num
  unfold linearFactor
  rw [hcen]
  have ha1 := roundBinary32_le (le_trans zero_le_one hP1)
  have ha2 := roundBinary32_ge (le_trans zero_le_one hP1)
  generalize roundBinary32 (points.length : α) = a at ha1 ha2 ⊢
  have ha0 : 0 ≤ a / 1250 := by
    have : 0 ≤ a := by linarith
    positivity
  have hl1 := roundBinary32_le ha0
  have hl2 := roundBinary32_ge ha0
  generalize roundBinary32 (a / 1250) = lf at hl1 hl2 ⊢
  have hlf0 : 0 ≤ lf := by linarith
  have hp0 : 0 ≤ (i : α) * lf := mul_nonneg hi0 hlf0
  have hp1 : (i : α) * lf ≤ 1249 * lf := mul_le_mul_of_nonneg_right hi' hlf0
  have hp2 : 1 ≤ i → lf ≤ (i : α) * lf := by
    intro hi1
    have : (1 : α) ≤ (i : α) := by exact_mod_cast hi1
    nlinarith
  have hy1 := roundBinary32_le hp0
  have hy2 := roundBinary32_ge hp0
  generalize (i : α) * lf = p at hp0 hp1 hp2 hy1 hy2 ⊢
  generalize roundBinary32 p = y at hy1 hy2 ⊢
  obtain ⟨hv1, hv2⟩ := abs_le.mp (roundBinary32_err (y - 1))
  generalize roundBinary32 (y - 1) = v at hv1 hv2 ⊢
  rcases le_or_lt 0 (y - 1) with hw | hw
  · rw [abs_of_nonneg hw] at hv1 hv2
    refine ⟨by linarith, fun _ => by linarith, fun _ => by linarith⟩
  · rw [abs_of_neg hw] at hv1 hv2
    refine ⟨by linarith, fun h2 => ?_, fun hi1 => ?_⟩
    · have : (2 : α) ≤ (points.length : α) := by exact_mod_cast h2
      linarith
    · have := hp2 hi1
      linarith

/-- For a non-empty `points` the index read at radius `i` is a valid index. -/
lemma sampleIndex_bounds {points : List α} {i : Nat} (hp : points ≠ [])
    (hP : points.length ≤ 2147483647) (hi1 : 1 ≤ i) (hi2 : i < center) :
    ∃ j : Int, sampleIndex points i = some j ∧ 0 ≤ j ∧ j < points.length := by
  have hlen : 0 < points.length := List.length_pos.mpr hp
  obtain ⟨hlt, -, hgt⟩ := @sampleIndex_value α _ _ points i hp hi2
  have hgt' := hgt hi1
  unfold sampleIndex
  generalize roundBinary32 (roundBinary32 ((i : α) * linearFactor points) - 1) = v
    at hlt hgt' ⊢
  by_cases h0 : 0 ≤ v
  · have hfl : ⌊v⌋ < (points.length : Int) := Int.floor_lt.mpr (by push_cast; exact hlt)
    exact ⟨_, castInt_of_nonneg h0 (by omega), Int.floor_nonneg.mpr h0, hfl⟩
  · have hneg : v < 0 := not_le.mp h0
    have hc : ⌈v⌉ = 0 := by
      rw [Int.ceil_eq_iff]
      push_cast
      exact ⟨by linarith, hneg.le⟩
    refine ⟨0, ?_, le_refl 0, by exact_mod_cast hlen⟩
    rw [castInt_of_neg hneg (by rw [hc]; norm_num), hc]

lemma pointColor_isSome {valueToRGB : α → QColor} {points : List α} {length maxD : α} {i : Nat}
    (hp : points ≠ []) (hP : points.length ≤ 2147483647) (hi1 : 1 ≤ i) (hi2 : i < center) :
    ∃ c, pointColor valueToRGB points length maxD i = some c := by
  obtain ⟨j, hj, hj0, hjP⟩ := sampleIndex_bounds hp hP hi1 hi2
  unfold pointColor
  split_ifs with h
  · simp only [hj, hj0, if_true]
    have : j.toNat < points.length := by omega
    rw [List.getElem?_eq_getElem this]
    exact ⟨_, rfl⟩
  · exact ⟨_, rfl⟩

/-- A `draw` with a non-negative angle in `int` range, non-empty `points`,
step counts in `int` range and a cosine and sine in `[-1, 1]` succeeds. -/
lemma draw_isSome {pi : α} {cos sin : α → α} (valueToRGB : α → QColor) {points : List α}
    {angle angleGrad : α} (initPoint length : α) {s : State α}
    (hlen : s._distances.length = 400) (h0 : 0 ≤ angle) (h1 : ⌊angle⌋ ≤ 2147483647)
    (hcol : ∀ maxD i, 1 ≤ i → i < center →
      ∃ c, pointColor valueToRGB points length maxD i = some c)
    (hstep : ∀ i, 1 ≤ i → i < center → step pi angleGrad i ≤ 2147483647)
    (hcos : ∀ x, |cos x| ≤ 1) (hsin : ∀ x, |sin x| ≤ 1) :
    ∃ s', draw pi cos sin valueToRGB points angle initPoint length angleGrad s = some s' := by
  have hset := setDistance_of_nonneg s._distances angle (initPoint + length) hlen h0 h1
  have hne : s._distances.set (⌊angle⌋ % 400).toNat (initPoint + length) ≠ [] := by
    intro hnil
    have := congrArg List.length hnil
    rw [List.length_set, hlen] at this
    simp at this
  obtain ⟨m, hm⟩ := maxElement_isSome hne
  obtain ⟨img', himg⟩ := paint_isSome angle (hcol (updateMaxDistance m s._maxDistance))
    hstep hcos hsin s._image
  exact ⟨_, draw_of_stages hset hm himg⟩

lemma step_le {pi angleGrad : α} {i : Nat} (hpi0 : 0 ≤ pi) (hpi : pi ≤ 4)
    (hw : angleGrad ≤ 1000000) (hi : i < center) : step pi angleGrad i ≤ 2147483647 := by
  have hi' : (i : α) ≤ 1249 := by
    have : i ≤ 1249 := by
      simp only [center] at hi
      omega
    exact_mod_cast this
  have hi0 : (0 : α) ≤ (i : α) := Nat.cast_nonneg i
  unfold step
  rw [Int.ceil_le]
  push_cast
  have hp : 0 ≤ (i : α) * pi := mul_nonneg hi0 hpi0
  have hp' : (i : α) * pi ≤ 1249 * 4 := by nlinarith
  rcases le_total angleGrad 0 with hneg | hpos
  · have : (i : α) * pi * angleGrad ≤ 0 := mul_nonpos_of_nonneg_of_nonpos hp hneg
    linarith
  · have : (i : α) * pi * angleGrad ≤ 1249 * 4 * 1000000 := by nlinarith
    linarith

/-! ### Draws into bin 0 -/

lemma floor_zero_mod : ((⌊(0 : α)⌋ % 400 : Int)).toNat = 0 := by
  simp

lemma maxElement_single {l : List α} {v : α} (hl : l = (List.replicate 400 0).set 0 v)
    (hv : 0 ≤ v) : maxElement l = some v := by
  subst hl
  apply maxElement_eq_of
  · exact List.mem_iff_getElem?.mpr ⟨0, List.getElem?_set_self (by rw [List.length_replicate]; norm_num)⟩
  · intro d hd
    rcases List.mem_or_eq_of_mem_set hd with h | h
    · rw [List.eq_of_mem_replicate h]
      exact hv
    · rw [h]

/-- A `draw` at angle 0 into a ring whose other bins are zero. -/
lemma draw_bin_zero {pi : α} {cos sin : α → α} {valueToRGB : α → QColor} {points : List α}
    {initPoint length angleGrad d : α} {s s' : State α}
    (hs : s._distances = (List.replicate 400 0).set 0 d) (hv : 0 ≤ initPoint + length)
    (h : draw pi cos sin valueToRGB points 0 initPoint length angleGrad s = some s') :
    s'._distances = (List.replicate 400 0).set 0 (initPoint + length) ∧
      maxElement s'._distances = some (initPoint + length) ∧
      s'._maxDistance = updateMaxDistance (initPoint + length) s._maxDistance := by
  obtain ⟨m, h1, h2, h3, -⟩ := draw_eq_some h
  have hlen : s._distances.length = 400 := by
    rw [hs, List.length_set, List.length_replicate]
  rw [setDistance_of_nonneg _ _ _ hlen (le_refl 0) (by simp), floor_zero_mod, hs, List.set_set,
    Option.some.injEq] at h1
  have hmax := maxElement_single h1.symm hv
  rw [hmax, Option.some.injEq] at h2
  rw [← h2] at h3
  exact ⟨h1.symm, hmax, h3⟩

lemma init_distances : (init : State α)._distances = (List.replicate 400 0).set 0 0 := by
  simp only [init, List.set_replicate_self]

lemma updateMaxDistance_1000_0 : updateMaxDistance (1000 : α) 0 = 1000 := by
  unfold updateMaxDistance qFuzzyCompare
  norm_num

lemma updateMaxDistance_100_1000 : updateMaxDistance (100 : α) 1000 = 100 := by
  unfold updateMaxDistance qFuzzyCompare
  have h1 : |(100 : α) - 1000| = 900 := by
    rw [abs_of_nonpos (by norm_num)]
    norm_num
  have h2 : |(100 : α)| = 100 := abs_of_nonneg (by norm_num)
  have h3 : |(1000 : α)| = 1000 := abs_of_nonneg (by norm_num)
  rw [h1, h2, h3, min_eq_left (by norm_num)]
  norm_num

lemma updateMaxDistance_near_1000 :
    updateMaxDistance ((1000 : α) + 1 / 1024) 1000 = 1000 := by
  unfold updateMaxDistance qFuzzyCompare
  have h1 : |(1000 : α) + 1 / 1024 - 1000| = 1 / 1024 := by
    rw [abs_of_nonneg (by norm_num)]
    norm_num
  have h2 : |(1000 : α) + 1 / 1024| = 1000 + 1 / 1024 := abs_of_nonneg (by norm_num)
  have h3 : |(1000 : α)| = 1000 := abs_of_nonneg (by norm_num)
  rw [h1, h2, h3, min_eq_right (by norm_num)]
  norm_num

lemma setDistance_mem {distances distances' : List α} {angle value d : α}
    (h : setDistance distances angle value = some distances') (hd : d ∈ distances') :
    d ∈ distances ∨ d = value := by
  unfold setDistance at h
  cases hc : castInt angle with
  | none => simp [hc] at h
  | some a =>
    simp only [hc] at h
    split_ifs at h
    simp only [Option.some.injEq] at h
    rw [← h] at hd
    exact List.mem_or_eq_of_mem_set hd

/-- The ring after a successful `draw` with a non-negative angle. -/
lemma draw_distances {pi : α} {cos sin : α → α} {valueToRGB : α → QColor} {points : List α}
    {angle initPoint length angleGrad : α} {s s' : State α}
    (hlen : s._distances.length = 400) (h0 : 0 ≤ angle) (h1 : ⌊angle⌋ ≤ 2147483647)
    (h : draw pi cos sin valueToRGB points angle initPoint length angleGrad s = some s') :
    s'._distances = s._distances.set (⌊angle⌋ % 400).toNat (initPoint + length) := by
  obtain ⟨m, hs, -⟩ := draw_eq_some h
  rw [setDistance_of_nonneg _ _ _ hlen h0 h1, Option.some.injEq] at hs
  exact hs.symm

/-- The angle of a substep in closed form. -/
lemma angleStep_eq (pi angle angleGrad : α) (i k : Nat) (hs : step pi angleGrad i ≠ 0) :
    angleStep pi angle angleGrad i k
      = angle * pi / 200 - pi / 2
        + angleGrad * pi / 200
          * ((2 * (k : α) - (step pi angleGrad i : α)) / (2 * (step pi angleGrad i : α))) := by
  have hS : (step pi angleGrad i : α) ≠ 0 := by exact_mod_cast hs
  unfold angleStep
  field_simp
  ring

/-- The last write of `paint`: the last substep of the outermost radius 1249. -/
lemma paint_last {pi : α} {cos sin : α → α} {valueToRGB : α → QColor}
    {points : List α} {angle length angleGrad maxD : α} {img img' : QImage} {n : Nat}
    (h : paint pi cos sin valueToRGB points angle length angleGrad maxD img = some img')
    (hn : (step pi angleGrad 1249).toNat = n + 1) :
    ∃ c x y img2, pointColor valueToRGB points length maxD 1249 = some c ∧
      castInt ((center : α) + ((1249 : Nat) : α) * cos (angleStep pi angle angleGrad 1249 n))
        = some x ∧
      castInt ((center : α) + ((1249 : Nat) : α) * sin (angleStep pi angle angleGrad 1249 n))
        = some y ∧
      img' = setPixelColor img2 x y c := by
  unfold paint at h
  rw [show (center - 1 : Nat) = 1248 + 1 from rfl, List.range'_concat] at h
  obtain ⟨img1, -, h1⟩ := foldlM_concat _ _ _ _ _ h
  rw [show 1 + 1 * 1248 = 1249 from rfl] at h1
  obtain ⟨c, hc, -, hf⟩ := paintRadius_eq_some h1
  rw [hn, List.range_succ] at hf
  obtain ⟨img2, -, h2⟩ := foldlM_concat _ _ _ _ _ hf
  obtain ⟨x, y, hx, hy, himg⟩ := paintStep_eq_some h2
  exact ⟨c, x, y, img2, hc, hx, hy, himg⟩

/-- Inside the range, the colour of a radius is a value of the colour mapper. -/
lemma pointColor_inside {valueToRGB : α → QColor} {points : List α} {length maxD : α}
    {i : Nat} {c : QColor} (hin : insideRange i length maxD = true)
    (h : pointColor valueToRGB points length maxD i = some c) : ∃ p, c = valueToRGB p := by
  unfold pointColor at h
  rw [if_pos hin] at h
  cases hj : sampleIndex points i with
  | none => simp [hj] at h
  | some j =>
    simp only [hj] at h
    split_ifs at h
    rw [Option.map_eq_some'] at h
    obtain ⟨p, -, hp⟩ := h
    exact ⟨p, hp.symm⟩

lemma maxElement_one_bin {l : List α} {v : α} {k : Nat} (hk : k < 400)
    (hl : l = (List.replicate 400 0).set k v) (hv : 0 ≤ v) : maxElement l = some v := by
  subst hl
  apply maxElement_eq_of
  · exact List.mem_iff_getElem?.mpr
      ⟨k, List.getElem?_set_self (by rw [List.length_replicate]; exact hk)⟩
  · intro d hd
    rcases List.mem_or_eq_of_mem_set hd with h | h
    · rw [List.eq_of_mem_replicate h]
      exact hv
    · rw [h]

lemma floor_sq_le (a : α) (ha : -1249 ≤ a) : ((⌊a⌋ : Int) : α) ^ 2 ≤ a ^ 2 + 2499 := by
  have h1 : ((⌊a⌋ : Int) : α) ≤ a := Int.floor_le a
  have h2 : a < ((⌊a⌋ : Int) : α) + 1 := Int.lt_floor_add_one a
  rcases le_or_lt 0 ((⌊a⌋ : Int) : α) with h | h
  · nlinarith
  · nlinarith

/-- Truncated coordinates of a point of the disc of radius `i ≤ 1249` lie less
than 1251 from the centre. -/
lemma floor_disc_bound (i : Nat) (C S : α) (hi : i ≤ 1249) (hCS : C ^ 2 + S ^ 2 ≤ 1) :
    ⌊(i : α) * C⌋ ^ 2 + ⌊(i : α) * S⌋ ^ 2 < 1251 ^ 2 := by
  have hi' : (i : α) ≤ 1249 := by exact_mod_cast hi
  have hi0 : (0 : α) ≤ (i : α) := Nat.cast_nonneg i
  have hC2 : C ^ 2 ≤ 1 := by nlinarith [sq_nonneg S]
  have hS2 : S ^ 2 ≤ 1 := by nlinarith [sq_nonneg C]
  have hC : -1 ≤ C := (abs_le.mp ((sq_le_one_iff_abs_le_one C).mp hC2)).1
  have hS : -1 ≤ S := (abs_le.mp ((sq_le_one_iff_abs_le_one S).mp hS2)).1
  have ha : -1249 ≤ (i : α) * C := by nlinarith
  have hb : -1249 ≤ (i : α) * S := by nlinarith
  have h1 := floor_sq_le _ ha
  have h2 := floor_sq_le _ hb
  have hsq : (i : α) ^ 2 ≤ 1249 ^ 2 := pow_le_pow_left₀ hi0 hi' 2
  have h3 : ((i : α) * C) ^ 2 + ((i : α) * S) ^ 2 ≤ 1249 ^ 2 := by
    calc ((i : α) * C) ^ 2 + ((i : α) * S) ^ 2 = (i : α) ^ 2 * (C ^ 2 + S ^ 2) := by ring
      _ ≤ (i : α) ^ 2 * 1 := mul_le_mul_of_nonneg_left hCS (sq_nonneg _)
      _ ≤ 1249 ^ 2 := by rw [mul_one]; exact hsq
  have hfin : ((⌊(i : α) * C⌋ : Int) : α) ^ 2 + ((⌊(i : α) * S⌋ : Int) : α) ^ 2
      < (1251 : α) ^ 2 := by
    have e1 : (1249 : α) ^ 2 = 1560001 := by norm_num
    have e2 : (1251 : α) ^ 2 = 1565001 := by norm_num
    rw [e1] at h3
    rw [e2]
    linarith
  exact_mod_cast hfin

/-- Every write of a `draw` lands less than `center + 1` pixels from the
centre when `cos² + sin² ≤ 1`. -/
lemma written_bound {pi : α} {cos sin : α → α} {valueToRGB : α → QColor}
    {points : List α} {angle length angleGrad maxD : α} {u v : Int} {c : QColor}
    (hcs : ∀ x, cos x ^ 2 + sin x ^ 2 ≤ 1)
    (h : Written pi cos sin valueToRGB points angle length angleGrad maxD u v c) :
    (u - 1250) ^ 2 + (v - 1250) ^ 2 < 1251 ^ 2 := by
  obtain ⟨i, k, hi1, hi2, -, -, hu, hv⟩ := h
  have hi' : i ≤ 1249 := by
    simp only [center] at hi2
    omega
  have hcs' := hcs (angleStep pi angle angleGrad i k)
  generalize cos (angleStep pi angle angleGrad i k) = C at hu hcs'
  generalize sin (angleStep pi angle angleGrad i k) = S at hv hcs'
  have hc1 : |C| ≤ 1 := by
    rw [← sq_le_one_iff_abs_le_one]
    nlinarith [sq_nonneg S]
  have hs1 : |S| ≤ 1 := by
    rw [← sq_le_one_iff_abs_le_one]
    nlinarith [sq_nonneg C]
  rw [(pixel_cast hc1 hi1 hi2).1, Option.some.injEq, Int.floor_nat_add] at hu
  rw [(pixel_cast hs1 hi1 hi2).1, Option.some.injEq, Int.floor_nat_add] at hv
  have hu' : u - 1250 = ⌊(i : α) * C⌋ := by
    rw [← hu]
    simp [center]
  have hv' : v - 1250 = ⌊(i : α) * S⌋ := by
    rw [← hv]
    simp [center]
  rw [hu', hv']
  exact floor_disc_bound i C S hi' hcs'

/-- The maximum of the ring after a write is non-negative when the entries
before the write were. -/
lemma max_nonneg_of_set {l : List α} {k : Nat} {v m : α} (hlen : l.length = 400)
    (hl : ∀ d ∈ l, 0 ≤ d) (hm : maxElement (l.set k v) = some m) : 0 ≤ m := by
  obtain ⟨-, hle⟩ := maxElement_spec hm
  have hj : ∃ j, j ≠ k ∧ j < 400 := by
    by_cases hk : k = 0
    · exact ⟨1, by omega, by norm_num⟩
    · exact ⟨0, fun h => hk h.symm, by norm_num⟩
  obtain ⟨j, hjk, hj400⟩ := hj
  have hjl : j < l.length := by omega
  have h1 : (l.set k v)[j]? = some l[j] := by
    rw [List.getElem?_set_ne (Ne.symm hjk), List.getElem?_eq_getElem hjl]
  have h2 : l[j] ∈ l.set k v := List.mem_iff_getElem?.mpr ⟨j, h1⟩
  exact le_trans (hl _ (List.getElem_mem hjl)) (hle _ h2)

lemma updateMaxDistance_nonneg {m old : α} (hm : 0 ≤ m) (ho : 0 ≤ old) :
    0 ≤ updateMaxDistance m old := by
  unfold updateMaxDistance
  split_ifs
  · exact hm
  · exact ho

/-- After a `draw` on a state with non-negative ring and `_maxDistance`, the
stored `_maxDistance` is non-negative. -/
lemma draw_maxDistance_nonneg {pi : α} {cos sin : α → α} {valueToRGB : α → QColor}
    {points : List α} {angle initPoint length angleGrad : α} {s s' : State α}
    (hlen : s._distances.length = 400) (hring : ∀ d ∈ s._distances, 0 ≤ d)
    (hmax : 0 ≤ s._maxDistance)
    (h : draw pi cos sin valueToRGB points angle initPoint length angleGrad s = some s') :
    0 ≤ s'._maxDistance := by
  obtain ⟨m, h1, h2, h3, -⟩ := draw_eq_some h
  have hset : ∃ k, s'._distances = s._distances.set k (initPoint + length) := by
    unfold setDistance at h1
    cases hc : castInt angle with
    | none => simp [hc] at h1
    | some a =>
      simp only [hc] at h1
      split_ifs at h1
      simp only [Option.some.injEq] at h1
      exact ⟨_, h1.symm⟩
  obtain ⟨k, hk⟩ := hset
  rw [hk] at h2
  rw [h3]
  exact updateMaxDistance_nonneg (max_nonneg_of_set hlen hring h2) hmax

/-! ### The real instance -/

lemma real_step_half_1249 : step Real.pi (1 / 2) 1249 = 22 := by
  have h1 := Real.pi_gt_d2
  have h2 := Real.pi_lt_d2
  unfold step
  rw [Int.ceil_eq_iff]
  push_cast
  constructor <;> linarith


/-- Over the reals, with the true cosine, sine and `π`, a `draw` with a
non-negative angle in `int` range, non-empty `points` and a width of at most
`10^6` gradians succeeds. -/
lemma real_draw_isSome (valueToRGB : ℝ → QColor) (points : List ℝ)
    (angle initPoint length angleGrad : ℝ) (s : State ℝ)
    (hlen : s._distances.length = 400) (h0 : 0 ≤ angle) (h1 : ⌊angle⌋ ≤ 2147483647)
    (hp : points ≠ []) (hP : points.length ≤ 2147483647) (hw : angleGrad ≤ 1000000) :
    ∃ s', draw Real.pi Real.cos Real.sin valueToRGB points angle initPoint length angleGrad s
      = some s' :=
  draw_isSome valueToRGB initPoint length hlen h0 h1
    (fun _ _ hi1 hi2 => pointColor_isSome hp hP hi1 hi2)
    (fun _ _ hi2 => step_le Real.pi_pos.le Real.pi_le_four hw hi2)
    Real.abs_cos_le_one Real.abs_sin_le_one

lemma real_step_1249 : step Real.pi (1 / 32) 1249 = 2 := by
  have h1 := Real.pi_gt_three
  have h2 := Real.pi_le_four
  unfold step
  rw [Int.ceil_eq_iff]
  push_cast
  constructor <;> linarith

lemma real_castInt_corner : castInt ((center : ℝ) + ((1249 : Nat) : ℝ) * -(√2 / 2)) = some 366 := by
  have hlo : (1766 / 1249 : ℝ) < √2 := by
    rw [Real.lt_sqrt (by norm_num)]
    norm_num
  have hhi : √2 ≤ (1768 / 1249 : ℝ) := by
    rw [Real.sqrt_le_left (by norm_num)]
    norm_num
  have hcen : ((center : Nat) : ℝ) = 1250 := by
    simp only [center]
    norm_num
  have hfl : ⌊(center : ℝ) + ((1249 : Nat) : ℝ) * -(√2 / 2)⌋ = 366 := by
    rw [Int.floor_eq_iff, hcen]
    push_cast
    constructor
    · rw [div_lt_iff₀ (by norm_num)] at hlo
      rw [le_div_iff₀ (by norm_num)] at hhi
      linarith
    · rw [div_lt_iff₀ (by norm_num)] at hlo
      linarith
  have h0 : 0 ≤ (center : ℝ) + ((1249 : Nat) : ℝ) * -(√2 / 2) := by
    rw [hcen]
    rw [le_div_iff₀ (by norm_num)] at hhi
    push_cast
    linarith
  rw [castInt_of_nonneg h0 (by rw [hfl]; norm_num), hfl]

/-- Drawing a wedge of 1/32 gradian at 350 gradians on a cleared plot paints
the pixel `(366, 366)` white. -/
lemma real_corner_pixel {s' : State ℝ}
    (h : draw Real.pi Real.cos Real.sin whiteMapper [1] 350 0 1000 (1 / 32) (clear init)
      = some s') :
    s'._image 366 366 = ⟨255, 255, 255, 255⟩ := by
  have hlen : (clear (init : State ℝ))._distances.length = 400 := by
    simp only [clear, List.length_replicate]
  have hfl : ⌊(350 : ℝ)⌋ = 350 := by
    rw [Int.floor_eq_iff]
    norm_num
  have hd := draw_distances hlen (by norm_num) (by rw [hfl]; norm_num) h
  rw [hfl, show ((350 : Int) % 400).toNat = 350 from rfl] at hd
  obtain ⟨m, -, h2, h3, hp⟩ := draw_eq_some h
  have hmax := maxElement_one_bin (by norm_num : 350 < 400) hd (by norm_num)
  rw [hmax, Option.some.injEq] at h2
  have hm : s'._maxDistance = 1000 := by
    rw [h3, ← h2, zero_add]
    exact updateMaxDistance_1000_0
  rw [hm] at hp
  obtain ⟨c, x, y, img2, hc, hx, hy, himg⟩ :=
    paint_last hp (by rw [real_step_1249]; rfl)
  have hang : angleStep Real.pi 350 (1 / 32) 1249 1 = Real.pi / 4 + Real.pi := by
    rw [angleStep_eq Real.pi 350 (1 / 32) 1249 1 (by rw [real_step_1249]; norm_num),
      real_step_1249]
    push_cast
    ring
  rw [hang, Real.cos_add_pi, Real.cos_pi_div_four, real_castInt_corner,
    Option.some.injEq] at hx
  rw [hang, Real.sin_add_pi, Real.sin_pi_div_four, real_castInt_corner,
    Option.some.injEq] at hy
  have hin : insideRange 1249 (1000 : ℝ) 1000 = true := by
    unfold insideRange
    rw [if_neg (by norm_num)]
    simp only [center, decide_eq_true_eq]
    norm_num
  obtain ⟨q, hq⟩ := pointColor_inside hin hc
  rw [himg, ← hx, ← hy, hq]
  exact setPixelColor_self _ _ _ _ (by norm_num) (by norm_num) (by norm_num) (by norm_num)

lemma updateMaxDistance_zero_zero : updateMaxDistance (0 : ℝ) 0 = 0 := by
  unfold updateMaxDistance
  split_ifs <;> rfl

lemma updateMaxDistance_neg_one_zero : updateMaxDistance (-1 : ℝ) 0 = -1 := by
  unfold updateMaxDistance qFuzzyCompare
  norm_num

lemma real_floor_mod (k : Nat) (hk : k < 400) : (⌊(k : ℝ)⌋ % 400).toNat = k := by
  rw [Int.floor_natCast]
  omega

/-- Sweeping the bins `0, …, k-1` with draws of length `-1` from the
constructed state: those bins hold `-1`, the others 0, and `_maxDistance` is
still 0. -/
lemma real_sweep (k : Nat) (hk : k ≤ 399) :
    ∃ s : State ℝ, Reachable Real.pi Real.cos Real.sin whiteMapper s ∧
      (∀ j, j < k → s._distances[j]? = some (-1)) ∧
      (∀ j, k ≤ j → j < 400 → s._distances[j]? = some 0) ∧ s._maxDistance = 0 := by
  induction k with
  | zero =>
    refine ⟨init, ReachableWith.init, fun j hj => absurd hj (Nat.not_lt_zero j), ?_, rfl⟩
    intro j _ hj
    simp only [init]
    rw [List.getElem?_replicate, if_pos hj]
  | succ k ih =>
    obtain ⟨s, hr, hlo, hhi, hm⟩ := ih (by omega)
    have hlen := reachable_length hr
    have hfl : ⌊(k : ℝ)⌋ = k := Int.floor_natCast k
    have h0 : (0 : ℝ) ≤ (k : ℝ) := Nat.cast_nonneg k
    have h1 : ⌊(k : ℝ)⌋ ≤ 2147483647 := by
      rw [hfl]
      omega
    obtain ⟨s', h⟩ := real_draw_isSome whiteMapper [1] (k : ℝ) 0 (-1) (1 / 32) s hlen h0 h1
      (by simp) (by simp) (by norm_num)
    have hd := draw_distances hlen h0 h1 h
    rw [real_floor_mod k (by omega), zero_add] at hd
    have hlo' : ∀ j, j < k + 1 → s'._distances[j]? = some (-1) := by
      intro j hj
      rw [hd]
      by_cases hjk : j = k
      · rw [hjk]
        exact List.getElem?_set_self (by omega)
      · rw [List.getElem?_set_ne (Ne.symm hjk)]
        exact hlo j (by omega)
    have hhi' : ∀ j, k + 1 ≤ j → j < 400 → s'._distances[j]? = some 0 := by
      intro j hj hj4
      rw [hd, List.getElem?_set_ne (by omega)]
      exact hhi j (by omega) hj4
    have hlen' : s'._distances.length = 400 := by
      rw [hd, List.length_set, hlen]
    have hmax : maxElement s'._distances = some 0 := by
      apply maxElement_eq_of
      · exact List.mem_iff_getElem?.mpr ⟨399, hhi' 399 (by omega) (by norm_num)⟩
      · intro d hdm
        obtain ⟨j, hj⟩ := List.mem_iff_getElem?.mp hdm
        have hj4 : j < 400 := by
          by_contra hcon
          rw [List.getElem?_eq_none (by omega)] at hj
          exact absurd hj (by simp)
        by_cases hjk : j < k + 1
        · rw [hlo' j hjk, Option.some.injEq] at hj
          rw [← hj]
          norm_num
        · rw [hhi' j (by omega) hj4, Option.some.injEq] at hj
          rw [← hj]
    obtain ⟨m, -, h2, h3, -⟩ := draw_eq_some h
    rw [hmax, Option.some.injEq] at h2
    refine ⟨s', ReachableWith.draw hr trivial h, hlo', hhi', ?_⟩
    rw [h3, ← h2, hm]
    exact updateMaxDistance_zero_zero

/-- After 399 such draws, the draw of length `-1` into bin 399 leaves every
bin at `-1` and `_maxDistance = -1`, and its last write is white. -/
lemma real_sweep_last :
    ∃ s s' : State ℝ, Reachable Real.pi Real.cos Real.sin whiteMapper s ∧
      draw Real.pi Real.cos Real.sin whiteMapper [1] 399 0 (-1) (1 / 32) s = some s' ∧
      s'._maxDistance = -1 ∧
      ∃ u v, Written Real.pi Real.cos Real.sin whiteMapper [1] 399 (-1) (1 / 32)
          s'._maxDistance u v ⟨255, 255, 255, 255⟩ ∧
        s'._image u v = ⟨255, 255, 255, 255⟩ := by
  obtain ⟨s, hr, hlo, -, hm⟩ := real_sweep 399 (le_refl 399)
  have hlen := reachable_length hr
  have hfl : ⌊(399 : ℝ)⌋ = 399 := by
    rw [Int.floor_eq_iff]
    norm_num
  have h0 : (0 : ℝ) ≤ 399 := by norm_num
  have h1 : ⌊(399 : ℝ)⌋ ≤ 2147483647 := by
    rw [hfl]
    norm_num
  obtain ⟨s', h⟩ := real_draw_isSome whiteMapper [1] 399 0 (-1) (1 / 32) s hlen h0 h1
    (by simp) (by simp) (by norm_num)
  have hd := draw_distances hlen h0 h1 h
  rw [hfl, show ((399 : Int) % 400).toNat = 399 from rfl, zero_add] at hd
  have hall : ∀ j : Nat, j < 400 → s'._distances[j]? = some (-1) := by
    intro j hj
    rw [hd]
    by_cases hjk : j = 399
    · rw [hjk]
      exact List.getElem?_set_self (by omega)
    · rw [List.getElem?_set_ne (Ne.symm hjk)]
      exact hlo j (by omega)
  have hmax : maxElement s'._distances = some (-1) := by
    apply maxElement_eq_of
    · exact List.mem_iff_getElem?.mpr ⟨0, hall 0 (by norm_num)⟩
    · intro d hdm
      obtain ⟨j, hj⟩ := List.mem_iff_getElem?.mp hdm
      have hlen' : s'._distances.length = 400 := by
        rw [hd, List.length_set, hlen]
      have hj4 : j < 400 := by
        by_contra hcon
        rw [List.getElem?_eq_none (by omega)] at hj
        exact absurd hj (by simp)
      rw [hall j hj4, Option.some.injEq] at hj
      rw [← hj]
  obtain ⟨m, -, h2, h3, hp⟩ := draw_eq_some h
  rw [hmax, Option.some.injEq] at h2
  have hm' : s'._maxDistance = -1 := by
    rw [h3, ← h2, hm]
    exact updateMaxDistance_neg_one_zero
  refine ⟨s, s', hr, h, hm', ?_⟩
  obtain ⟨c, x, y, img2, hc, hx, hy, himg⟩ := paint_last hp (by rw [real_step_1249]; rfl)
  have hin : insideRange 1249 (-1 : ℝ) s'._maxDistance = true := by
    rw [hm']
    unfold insideRange
    rw [if_neg (by norm_num)]
    simp only [center, decide_eq_true_eq]
    norm_num
  obtain ⟨q, hq⟩ := pointColor_inside hin hc
  have hc' : c = ⟨255, 255, 255, 255⟩ := hq
  rw [hc'] at hc himg
  have hi2 : 1249 < center := by norm_num [center]
  have bx := pixel_cast (Real.abs_cos_le_one (angleStep Real.pi 399 (1 / 32) 1249 1))
    (by norm_num : 1 ≤ 1249) hi2
  have bY := pixel_cast (Real.abs_sin_le_one (angleStep Real.pi 399 (1 / 32) 1249 1))
    (by norm_num : 1 ≤ 1249) hi2
  have ex := hx
  have ey := hy
  rw [bx.1, Option.some.injEq] at ex
  rw [bY.1, Option.some.injEq] at ey
  refine ⟨x, y, ⟨1249, 1, by norm_num, hi2, by rw [real_step_1249]; norm_num, hc, hx, hy⟩, ?_⟩
  rw [himg]
  apply setPixelColor_self
  · rw [← ex]
    linarith [bx.2.1]
  · rw [← ex]
    linarith [bx.2.2]
  · rw [← ey]
    linarith [bY.2.1]
  · rw [← ey]
    linarith [bY.2.2]

/-! ### The cursor resolver over the reals

`atan2f(y, x)` is the argument of `x + iy` and `hypotf(x, y)` is `√(x² + y²)`. -/

lemma real_arg_polar (ρ ψ : ℝ) (hρ : 0 < ρ) (hψ : ψ ∈ Set.Ioc (-Real.pi) Real.pi) :
    Complex.arg ⟨ρ * Real.cos ψ, ρ * Real.sin ψ⟩ = ψ := by
  have e : (⟨ρ * Real.cos ψ, ρ * Real.sin ψ⟩ : ℂ)
      = (ρ : ℂ) * (Complex.cos ψ + Complex.sin ψ * Complex.I) := by
    apply Complex.ext
    · simp [← Complex.ofReal_cos, ← Complex.ofReal_sin]
    · simp [← Complex.ofReal_cos, ← Complex.ofReal_sin]
  rw [e]
  exact Complex.arg_mul_cos_add_sin_mul_I hρ hψ

lemma real_grad_bounds (ψ : ℝ) (hψ : ψ ∈ Set.Ioc (-Real.pi) Real.pi) :
    0 < ψ * (200 / Real.pi) + 200 ∧ ψ * (200 / Real.pi) + 200 ≤ 400 := by
  have hpi := Real.pi_pos
  have e : ψ * (200 / Real.pi) = ψ / Real.pi * 200 := by ring
  have h1 : -1 < ψ / Real.pi := by
    rw [lt_div_iff₀ hpi]
    linarith [hψ.1]
  have h2 : ψ / Real.pi ≤ 1 := by
    rw [div_le_iff₀ hpi]
    linarith [hψ.2]
  rw [e]
  constructor <;> linarith

/-- The bin of a cursor at the polar position `(ρ, ψ)` of the resolver's own
convention, `delta = (-ρ sin ψ, ρ cos ψ)`. -/
lemma real_grad_polar (ρ ψ : ℝ) (hρ : 0 < ρ) (hψ : ψ ∈ Set.Ioc (-Real.pi) Real.pi) :
    grad Real.pi (fun y x => Complex.arg ⟨x, y⟩) (-(ρ * Real.sin ψ), ρ * Real.cos ψ)
      = some (⌊ψ * (200 / Real.pi) + 200⌋ % 400) := by
  obtain ⟨hlo, hhi⟩ := real_grad_bounds ψ hψ
  have hfl : ⌊ψ * (200 / Real.pi) + 200⌋ ≤ 400 := by
    have : ⌊ψ * (200 / Real.pi) + 200⌋ < 400 + 1 := Int.floor_lt.mpr (by push_cast; linarith)
    omega
  have hf0 : 0 ≤ ⌊ψ * (200 / Real.pi) + 200⌋ := Int.floor_nonneg.mpr hlo.le
  unfold grad
  simp only [neg_neg]
  rw [real_arg_polar ρ ψ hρ hψ, castInt_of_nonneg hlo.le (by omega), Option.map_some',
    Int.tmod_eq_emod hf0 (by norm_num)]

lemma real_hypot_polar (ρ ψ : ℝ) (hρ : 0 < ρ) :
    √((-(ρ * Real.sin ψ)) ^ 2 + (ρ * Real.cos ψ) ^ 2) = ρ := by
  have e : (-(ρ * Real.sin ψ)) ^ 2 + (ρ * Real.cos ψ) ^ 2 = ρ ^ 2 := by
    have := Real.sin_sq_add_cos_sq ψ
    nlinarith
  rw [e, Real.sqrt_sq hρ.le]

/-- The resolver at the polar position `(ρ, ψ)` of its own convention. -/
lemma real_update_polar (ρ ψ width height maxD : ℝ) (w : Cursor ℝ) (hρ : 0 < ρ) (hρ1 : ρ ≤ 1)
    (hψ : ψ ∈ Set.Ioc (-Real.pi) Real.pi)
    (hd : delta width height w._mousePos = (-(ρ * Real.sin ψ), ρ * Real.cos ψ)) :
    updateMouseColumnData Real.pi (fun y x => Complex.arg ⟨x, y⟩)
        (fun x y => √(x ^ 2 + y ^ 2)) width height maxD w
      = some { w with
          _mouseSampleAngle := ((⌊ψ * (200 / Real.pi) + 200⌋ % 400 : Int) : ℝ) * (180 / 200)
          _mouseSampleDistance := ρ * maxD * (1 / 1000) } := by
  unfold updateMouseColumnData
  simp only [hd, real_hypot_polar ρ ψ hρ, real_grad_polar ρ ψ hρ hψ]
  rw [if_neg (not_lt.mpr hρ1)]

/-- A cursor at `ρ (cos φ, sin φ)` is at the polar position `(ρ, ψ)` of the
resolver's convention for the representative `ψ` of `φ - π/2` in `(-π, π]`. -/
lemma real_polar_representative (φ : ℝ) :
    ∃ (ψ : ℝ) (m : Int), ψ ∈ Set.Ioc (-Real.pi) Real.pi ∧
      ψ = φ - Real.pi / 2 - (m : ℝ) * (2 * Real.pi) ∧
      Real.cos φ = -Real.sin ψ ∧ Real.sin φ = Real.cos ψ := by
  have h2pi : (0 : ℝ) < 2 * Real.pi := by linarith [Real.pi_pos]
  refine ⟨toIocMod h2pi (-Real.pi) (φ - Real.pi / 2),
    toIocDiv h2pi (-Real.pi) (φ - Real.pi / 2), ?_, ?_, ?_, ?_⟩
  · have := toIocMod_mem_Ioc h2pi (-Real.pi) (φ - Real.pi / 2)
    rw [show -Real.pi + 2 * Real.pi = Real.pi by ring] at this
    exact this
  · rw [← self_sub_toIocDiv_zsmul h2pi (-Real.pi) (φ - Real.pi / 2), zsmul_eq_mul]
  · rw [← self_sub_toIocDiv_zsmul h2pi (-Real.pi) (φ - Real.pi / 2), zsmul_eq_mul,
      Real.sin_sub_int_mul_two_pi, Real.sin_sub_pi_div_two, neg_neg]
  · rw [← self_sub_toIocDiv_zsmul h2pi (-Real.pi) (φ - Real.pi / 2), zsmul_eq_mul,
      Real.cos_sub_int_mul_two_pi, Real.cos_sub_pi_div_two]

/-- In a 200 × 200 view the cursor `(200, 100)`, at 3 o'clock on the rim, is at
`delta = (1, 0)`, and the resolver reports 90 degrees. -/
lemma real_three_oclock (maxD : ℝ) (c : Bool) (a d : ℝ) :
    delta (200 : ℝ) 200 ((200, 100) : ℝ × ℝ) = (1, 0) ∧
    ∃ w' : Cursor ℝ,
      updateMouseColumnData Real.pi (fun y x => Complex.arg ⟨x, y⟩)
        (fun x y => √(x ^ 2 + y ^ 2)) 200 200 maxD ⟨(200, 100), c, a, d⟩ = some w' ∧
      w'._mouseSampleAngle = 90 := by
  have hpi := Real.pi_pos
  have hdel : delta (200 : ℝ) 200 ((200, 100) : ℝ × ℝ) = (1, 0) := by
    unfold delta
    norm_num
  have hψ : -(Real.pi / 2) ∈ Set.Ioc (-Real.pi) Real.pi := ⟨by linarith, by linarith⟩
  have hd : delta (200 : ℝ) 200 (⟨(200, 100), c, a, d⟩ : Cursor ℝ)._mousePos
      = (-(1 * Real.sin (-(Real.pi / 2))), 1 * Real.cos (-(Real.pi / 2))) := by
    rw [Real.sin_neg, Real.cos_neg, Real.sin_pi_div_two, Real.cos_pi_div_two]
    simp only [hdel]
    norm_num
  have hu := real_update_polar 1 (-(Real.pi / 2)) 200 200 maxD ⟨(200, 100), c, a, d⟩
    one_pos (le_refl 1) hψ hd
  have ht : -(Real.pi / 2) * (200 / Real.pi) + 200 = 100 := by
    field_simp
    ring
  have hf : ⌊-(Real.pi / 2) * (200 / Real.pi) + 200⌋ = 100 := by
    rw [ht, Int.floor_eq_iff]
    norm_num
  refine ⟨hdel, _, hu, ?_⟩
  simp only [hf]
  norm_num

/-- Over the reals the bin of the resolver is the bin of the specification, and
it lies in `[0, 399]`. -/
lemma real_grad_eq_spec (d : ℝ × ℝ) :
    grad Real.pi (fun y x => Complex.arg ⟨x, y⟩) d
        = some (specGrad Real.pi (fun y x => Complex.arg ⟨x, y⟩) d) ∧
      0 ≤ specGrad Real.pi (fun y x => Complex.arg ⟨x, y⟩) d ∧
      specGrad Real.pi (fun y x => Complex.arg ⟨x, y⟩) d ≤ 399 := by
  have hψ : Complex.arg ⟨d.2, -d.1⟩ ∈ Set.Ioc (-Real.pi) Real.pi :=
    ⟨Complex.neg_pi_lt_arg _, Complex.arg_le_pi _⟩
  obtain ⟨hlo, hhi⟩ := real_grad_bounds _ hψ
  have hfl : ⌊Complex.arg ⟨d.2, -d.1⟩ * (200 / Real.pi) + 200⌋ ≤ 400 := by
    have : ⌊Complex.arg ⟨d.2, -d.1⟩ * (200 / Real.pi) + 200⌋ < 400 + 1 :=
      Int.floor_lt.mpr (by push_cast; linarith)
    omega
  have hf0 : 0 ≤ ⌊Complex.arg ⟨d.2, -d.1⟩ * (200 / Real.pi) + 200⌋ :=
    Int.floor_nonneg.mpr hlo.le
  have hsplit : ⌊Complex.arg ⟨d.2, -d.1⟩ * (200 / Real.pi) + 200⌋
      = ⌊Complex.arg ⟨d.2, -d.1⟩ * 200 / Real.pi⌋ + 200 := by
    have e : Complex.arg ⟨d.2, -d.1⟩ * (200 / Real.pi) + 200
        = Complex.arg ⟨d.2, -d.1⟩ * 200 / Real.pi + ((200 : Int) : ℝ) := by
      push_cast
      ring
    rw [e, Int.floor_add_int]
  refine ⟨?_, ?_, ?_⟩
  · unfold grad specGrad
    rw [castInt_of_nonneg hlo.le (by omega), Option.map_some',
      Int.tmod_eq_emod hf0 (by norm_num), hsplit]
  · unfold specGrad
    exact Int.emod_nonneg _ (by norm_num)
  · unfold specGrad
    have := Int.emod_lt_of_pos (⌊Complex.arg ⟨d.2, -d.1⟩ * 200 / Real.pi⌋ + 200)
      (by norm_num : (0 : Int) < 400)
    omega

/-- The resolver over the reals when the cursor is not outside the disc. -/
lemma real_update_inside (width height maxD : ℝ) (w : Cursor ℝ)
    (h : ¬ 1 < √((delta width height w._mousePos).1 ^ 2
      + (delta width height w._mousePos).2 ^ 2)) :
    updateMouseColumnData Real.pi (fun y x => Complex.arg ⟨x, y⟩)
        (fun x y => √(x ^ 2 + y ^ 2)) width height maxD w
      = some { w with
          _mouseSampleAngle :=
            ((specGrad Real.pi (fun y x => Complex.arg ⟨x, y⟩)
              (delta width height w._mousePos) : Int) : ℝ) * (180 / 200)
          _mouseSampleDistance :=
            √((delta width height w._mousePos).1 ^ 2 + (delta width height w._mousePos).2 ^ 2)
              * maxD * (1 / 1000) } := by
  unfold updateMouseColumnData
  simp only [gt_iff_lt]
  rw [if_neg h, (real_grad_eq_spec _).1]

/-- In a 200 × 200 view the cursor `(100, 50)`, straight above the centre, is at
`delta = (0, -1/2)`; the resolver reports 0 degrees and leaves `_containsMouse`
as it was. -/
lemma real_twelve_oclock (maxD : ℝ) (c : Bool) (a d : ℝ) :
    delta (200 : ℝ) 200 ((100, 50) : ℝ × ℝ) = (0, -(1 / 2)) ∧
    updateMouseColumnData Real.pi (fun y x => Complex.arg ⟨x, y⟩)
        (fun x y => √(x ^ 2 + y ^ 2)) 200 200 maxD ⟨(100, 50), c, a, d⟩
      = some ⟨(100, 50), c, 0, 1 / 2 * maxD * (1 / 1000)⟩ := by
  have hpi := Real.pi_pos
  have hdel : delta (200 : ℝ) 200 ((100, 50) : ℝ × ℝ) = (0, -(1 / 2)) := by
    unfold delta
    norm_num
  have hψ : Real.pi ∈ Set.Ioc (-Real.pi) Real.pi := ⟨by linarith, le_refl _⟩
  have hd : delta (200 : ℝ) 200 (⟨(100, 50), c, a, d⟩ : Cursor ℝ)._mousePos
      = (-(1 / 2 * Real.sin Real.pi), 1 / 2 * Real.cos Real.pi) := by
    rw [Real.sin_pi, Real.cos_pi]
    simp only [hdel]
    norm_num
  have hu := real_update_polar (1 / 2) Real.pi 200 200 maxD ⟨(100, 50), c, a, d⟩
    (by norm_num) (by norm_num) hψ hd
  have ht : Real.pi * (200 / Real.pi) + 200 = 400 := by
    field_simp
    ring
  have hf : ⌊Real.pi * (200 / Real.pi) + 200⌋ = 400 := by
    rw [ht, Int.floor_eq_iff]
    norm_num
  refine ⟨hdel, ?_⟩
  rw [hu, hf]
  norm_num

/-- In a 200 × 200 view the cursor `(150, 100)`, to the right of the centre, is
at `delta = (1/2, 0)`, and the resolver reports 90 degrees. -/
lemma real_three_oclock_half (maxD : ℝ) (c : Bool) (a d : ℝ) :
    delta (200 : ℝ) 200 ((150, 100) : ℝ × ℝ) = (1 / 2, 0) ∧
    updateMouseColumnData Real.pi (fun y x => Complex.arg ⟨x, y⟩)
        (fun x y => √(x ^ 2 + y ^ 2)) 200 200 maxD ⟨(150, 100), c, a, d⟩
      = some ⟨(150, 100), c, 90, 1 / 2 * maxD * (1 / 1000)⟩ := by
  have hpi := Real.pi_pos
  have hdel : delta (200 : ℝ) 200 ((150, 100) : ℝ × ℝ) = (1 / 2, 0) := by
    unfold delta
    norm_num
  have hψ : -(Real.pi / 2) ∈ Set.Ioc (-Real.pi) Real.pi := ⟨by linarith, by linarith⟩
  have hd : delta (200 : ℝ) 200 (⟨(150, 100), c, a, d⟩ : Cursor ℝ)._mousePos
      = (-(1 / 2 * Real.sin (-(Real.pi / 2))), 1 / 2 * Real.cos (-(Real.pi / 2))) := by
    rw [Real.sin_neg, Real.cos_neg, Real.sin_pi_div_two, Real.cos_pi_div_two]
    simp only [hdel]
    norm_num
  have hu := real_update_polar (1 / 2) (-(Real.pi / 2)) 200 200 maxD ⟨(150, 100), c, a, d⟩
    (by norm_num) (by norm_num) hψ hd
  have ht : -(Real.pi / 2) * (200 / Real.pi) + 200 = 100 := by
    field_simp
    ring
  have hf : ⌊-(Real.pi / 2) * (200 / Real.pi) + 200⌋ = 100 := by
    rw [ht, Int.floor_eq_iff]
    norm_num
  refine ⟨hdel, ?_⟩
  rw [hu, hf]
  norm_num

/-! ### The sample index -/

/-- Whenever the index cast is defined, it is at most `P − 2` for `P ≥ 2`. -/
lemma sampleIndex_le_of_some {points : List α} {i : Nat} {j : Int}
    (hP2 : 2 ≤ points.length) (hi2 : i < center) (h : sampleIndex points i = some j) :
    j ≤ (points.length : Int) - 2 := by
  have hp : points ≠ [] := by
    intro hnil
    rw [hnil] at hP2
    simp at hP2
  obtain ⟨-, hlt, -⟩ := @sampleIndex_value α _ _ points i hp hi2
  have hlt' := hlt hP2
  unfold sampleIndex at h
  generalize roundBinary32 (roundBinary32 ((i : α) * linearFactor points) - 1) = v
    at hlt' h
  obtain ⟨hj, -, -⟩ := castInt_eq_some h
  split_ifs at hj with h0
  · have : ⌊v⌋ < (points.length : Int) - 1 := Int.floor_lt.mpr (by push_cast; exact hlt')
    omega
  · have : ⌈v⌉ ≤ 0 := Int.ceil_le.mpr (by push_cast; exact (not_le.mp h0).le)
    omega

lemma sampleIndex_append (l : List α) (a b : α) (i : Nat) :
    sampleIndex (l ++ [a]) i = sampleIndex (l ++ [b]) i := by
  unfold sampleIndex linearFactor
  simp only [List.length_append, List.length_singleton]

/-- With 14 samples the binary32 index at radius 625 is 5: `fl(14/1250)` is below
`14/1250`, so `fl(625 · linearFactor) = 14680063 / 2^21` is below 7. -/
lemma sampleIndex_14_625 : sampleIndex (List.replicate 14 (1 : ℚ)) 625 = some 5 := by
  have h14 : roundBinary32 (14 : ℚ) = 14 := by
    rw [roundBinary32_eq 3 14680064 (by norm_num) (by norm_num) (by norm_num) (by norm_num)]
    norm_num
  have hlf : roundBinary32 ((14 : ℚ) / 1250) = 3006477 / 268435456 := by
    rw [roundBinary32_eq (-7) 12025908 (by norm_num [abs_of_pos])
      (by norm_num [abs_of_pos]) (by norm_num) (by norm_num [abs_lt])]
    norm_num
  have hy : roundBinary32 ((625 : ℚ) * (3006477 / 268435456)) = 14680063 / 2097152 := by
    rw [roundBinary32_eq 2 14680063 (by norm_num [abs_of_pos])
      (by norm_num [abs_of_pos]) (by norm_num) (by norm_num [abs_lt])]
    norm_num
  have hv : roundBinary32 ((14680063 / 2097152 : ℚ) - 1) = 12582911 / 2097152 := by
    rw [roundBinary32_eq 2 12582911 (by norm_num [abs_of_pos])
      (by norm_num [abs_of_pos]) (by norm_num) (by norm_num [abs_lt])]
    norm_num
  have hfl : ⌊(12582911 / 2097152 : ℚ)⌋ = 5 := by
    rw [Int.floor_eq_iff]
    norm_num
  have hcen : ((center : Nat) : ℚ) = 1250 := by
    simp only [center]
    norm_num
  unfold sampleIndex linearFactor
  simp only [List.length_replicate, Nat.cast_ofNat]
  rw [hcen, h14, hlf, hy, hv, castInt_of_nonneg (by norm_num) (by rw [hfl]; norm_num), hfl]

/-- With 14 samples the index of the specification at radius 625 is 6. -/
lemma specSampleIndex_14_625 : specSampleIndex (List.replicate 14 (1 : ℚ)) 625 = 6 := by
  have hcen : ((center : Nat) : ℚ) = 1250 := by
    simp only [center]
    norm_num
  have hfl : ⌊(625 : ℚ) * 14 / 1250⌋ = 7 := by
    rw [Int.floor_eq_iff]
    norm_num
  unfold specSampleIndex
  simp only [List.length_replicate, Nat.cast_ofNat]
  rw [hcen, hfl]
  rfl

/-- The colour of a radius does not depend on the last sample. -/
lemma pointColor_append (valueToRGB : α → QColor) (l : List α) (a b : α) (length maxD : α)
    {i : Nat} (hl : l ≠ []) (hi2 : i < center) :
    pointColor valueToRGB (l ++ [a]) length maxD i
      = pointColor valueToRGB (l ++ [b]) length maxD i := by
  have hlen : 0 < l.length := List.length_pos.mpr hl
  unfold pointColor
  rw [sampleIndex_append l a b i]
  split_ifs with hin
  · cases hj : sampleIndex (l ++ [b]) i with
    | none => rfl
    | some j =>
      have hle := sampleIndex_le_of_some
        (by simp only [List.length_append, List.length_singleton]; omega) hi2 hj
      simp only [List.length_append, List.length_singleton] at hle
      simp only
      split_ifs with h0
      · have hjl : j.toNat < l.length := by omega
        rw [List.getElem?_append_left hjl, List.getElem?_append_left hjl]
      · rfl
  · rfl

lemma foldlM_congr_mem {β γ : Type} (f g : β → γ → Option β) (l : List γ)
    (h : ∀ a ∈ l, ∀ b, f b a = g b a) (b : β) : l.foldlM f b = l.foldlM g b := by
  induction l generalizing b with
  | nil => rfl
  | cons a l ih =>
    simp only [List.foldlM_cons, Option.bind_eq_bind]
    rw [h a (List.mem_cons_self _ _) b]
    cases g b a with
    | none => rfl
    | some b1 =>
      simp only [Option.some_bind]
      exact ih (fun a' ha' => h a' (List.mem_cons_of_mem _ ha')) b1

/-- The image painted does not depend on the last sample. -/
lemma paint_append (pi : α) (cos sin : α → α) (valueToRGB : α → QColor) (l : List α) (a b : α)
    (angle length angleGrad maxD : α) (img : QImage) (hl : l ≠ []) :
    paint pi cos sin valueToRGB (l ++ [a]) angle length angleGrad maxD img
      = paint pi cos sin valueToRGB (l ++ [b]) angle length angleGrad maxD img := by
  unfold paint
  apply foldlM_congr_mem
  intro i hi img1
  have hi' := List.mem_range'_1.mp hi
  have hi2 : i < center := by
    have := hi'.2
    simp only [center] at this ⊢
    omega
  unfold paintRadius
  rw [pointColor_append valueToRGB l a b length maxD hl hi2]

/-! ### Draws without substeps -/

lemma step_nonpos {pi angleGrad : α} (hpi : 0 ≤ pi) (hw : angleGrad ≤ 0) (i : Nat) :
    step pi angleGrad i ≤ 0 := by
  unfold step
  rw [Int.ceil_le]
  push_cast
  apply mul_nonpos_of_nonneg_of_nonpos (Nat.cast_nonneg i)
  apply mul_nonpos_of_nonneg_of_nonpos _ hw
  positivity

lemma paint_no_step {pi : α} {cos sin : α → α} {valueToRGB : α → QColor}
    {points : List α} {angle length angleGrad maxD : α} {img img' : QImage}
    (hs : ∀ i, step pi angleGrad i ≤ 0)
    (h : paint pi cos sin valueToRGB points angle length angleGrad maxD img = some img') :
    img' = img := by
  have key := foldlM_rel
    (paintRadius pi cos sin valueToRGB points angle length angleGrad maxD)
    (fun a b => b = a) (fun _ => rfl) (fun a b c hab hbc => by rw [hbc, hab])
    (List.range' 1 (center - 1))
    (fun i _ b b' hb => by
      obtain ⟨c, -, -, hf⟩ := paintRadius_eq_some hb
      rw [Int.toNat_eq_zero.mpr (hs i)] at hf
      simp only [List.range_zero, List.foldlM_nil, Option.pure_def, Option.some.injEq] at hf
      exact hf.symm)
    img img' h
  exact key

/-! ### Consecutive substeps -/

end Lemmas

section Claims

variable {α : Type} [LinearOrderedField α] [FloorRing α]

/-- C1 (as amended): after a successful `draw`, the ring has a maximum `m`
(an entry that bounds every entry), and the stored `_maxDistance` is either `m`
or it is the value stored before the call, in which case `m` and that value
compare fuzzily equal (`|m - old| * 100000 ≤ min |m| |old|`). -/
theorem C1_maxDistance_is_max_or_fuzzy_equal (pi : α) (cos sin : α → α)
    (valueToRGB : α → QColor) (points : List α) (angle initPoint length angleGrad : α)
    (s s' : State α)
    (h : draw pi cos sin valueToRGB points angle initPoint length angleGrad s = some s') :
    ∃ m, maxElement s'._distances = some m ∧ m ∈ s'._distances ∧
      (∀ d ∈ s'._distances, d ≤ m) ∧
      (s'._maxDistance = m ∨
        (s'._maxDistance = s._maxDistance ∧
          |m - s._maxDistance| * 100000 ≤ min |m| |s._maxDistance|)) := by
  obtain ⟨m, -, h2, h3, -⟩ := draw_eq_some h
  obtain ⟨hm, hle⟩ := maxElement_spec h2
  refine ⟨m, h2, hm, hle, ?_⟩
  rw [h3]
  unfold updateMaxDistance qFuzzyCompare
  by_cases hf : |m - s._maxDistance| * 100000 ≤ min |m| |s._maxDistance|
  · right
    simp [hf]
  · left
    simp [hf]

/-- C1 witness: the first draw of scenario S1 from the constructed state. -/
theorem C1_witness :
    ∃ s' : State ℝ,
      draw Real.pi Real.cos Real.sin whiteMapper [1] 0 0 1000 (1 / 2) init = some s' ∧
      ∃ m, maxElement s'._distances = some m ∧ m ∈ s'._distances ∧
        (∀ d ∈ s'._distances, d ≤ m) ∧
        (s'._maxDistance = m ∨
          (s'._maxDistance = (init : State ℝ)._maxDistance ∧
            |m - (init : State ℝ)._maxDistance| * 100000
              ≤ min |m| |(init : State ℝ)._maxDistance|)) := by
  obtain ⟨s', h⟩ := real_draw_isSome whiteMapper [1] 0 0 1000 (1 / 2) init
    (by simp only [init, List.length_replicate])
    (le_refl 0) (by simp) (by simp) (by simp) (by norm_num)
  exact ⟨s', h, C1_maxDistance_is_max_or_fuzzy_equal _ _ _ _ _ _ _ _ _ _ _ h⟩

/-- C1 (as stated) fails: after `draw(points, 0, 0, 1000, 0.5)` on the
constructed state, which is reachable, `draw(points, 0, 0, 1000 + 1/1024, 0.5)`
leaves the ring with maximum `1000 + 1/1024` while `_maxDistance` stays `1000`. -/
theorem C1_counterexample :
    ∃ s₁ s₂ : State ℝ,
      draw Real.pi Real.cos Real.sin whiteMapper [1] 0 0 1000 (1 / 2) init = some s₁ ∧
      Reachable Real.pi Real.cos Real.sin whiteMapper s₁ ∧
      draw Real.pi Real.cos Real.sin whiteMapper [1] 0 0 (1000 + 1 / 1024) (1 / 2) s₁
        = some s₂ ∧
      maxElement s₂._distances = some (1000 + 1 / 1024) ∧
      s₂._maxDistance = 1000 ∧ s₂._maxDistance ≠ 1000 + 1 / 1024 := by
  obtain ⟨s₁, h1⟩ := real_draw_isSome whiteMapper [1] 0 0 1000 (1 / 2) init
    (by simp only [init, List.length_replicate])
    (le_refl 0) (by simp) (by simp) (by simp) (by norm_num)
  have hr : Reachable Real.pi Real.cos Real.sin whiteMapper s₁ :=
    ReachableWith.draw ReachableWith.init trivial h1
  obtain ⟨hd1, -, hm1⟩ := draw_bin_zero init_distances (by norm_num) h1
  obtain ⟨s₂, h2⟩ := real_draw_isSome whiteMapper [1] 0 0 (1000 + 1 / 1024)
    (1 / 2) s₁ (reachable_length hr)
    (le_refl 0) (by simp) (by simp) (by simp) (by norm_num)
  obtain ⟨-, hx2, hm2⟩ := draw_bin_zero hd1 (by norm_num) h2
  have e1 : s₁._maxDistance = 1000 := by
    rw [hm1]
    simp only [init, zero_add]
    exact updateMaxDistance_1000_0
  have e2 : s₂._maxDistance = 1000 := by
    rw [hm2, e1, zero_add]
    exact updateMaxDistance_near_1000
  refine ⟨s₁, s₂, h1, hr, h2, ?_, e2, ?_⟩
  · rw [hx2, zero_add]
  · rw [e2]
    norm_num

/-- C2: for a draw with `angle ≥ 0` whose truncation fits in `int`, on a ring
of 400 entries, the ring write of line 83 succeeds, and after a successful
`draw` the entry at index `⌊angle⌋ mod 400` is `initPoint + length` while every
other entry is the one it was. -/
theorem C2_ring_write (pi : α) (cos sin : α → α) (valueToRGB : α → QColor)
    (points : List α) (angle initPoint length angleGrad : α) (s s' : State α)
    (hlen : s._distances.length = 400) (h0 : 0 ≤ angle) (h1 : ⌊angle⌋ ≤ 2147483647)
    (h : draw pi cos sin valueToRGB points angle initPoint length angleGrad s = some s') :
    0 ≤ ⌊angle⌋ % 400 ∧ ⌊angle⌋ % 400 < 400 ∧
      s'._distances.length = 400 ∧
      s'._distances[(⌊angle⌋ % 400).toNat]? = some (initPoint + length) ∧
      ∀ j : Nat, j ≠ (⌊angle⌋ % 400).toNat → s'._distances[j]? = s._distances[j]? := by
  have hnn : 0 ≤ ⌊angle⌋ % 400 := Int.emod_nonneg _ (by norm_num)
  have hlt : ⌊angle⌋ % 400 < 400 := Int.emod_lt_of_pos _ (by norm_num)
  have hd := draw_distances hlen h0 h1 h
  refine ⟨hnn, hlt, ?_, ?_, ?_⟩
  · rw [hd, List.length_set, hlen]
  · rw [hd]
    apply List.getElem?_set_self
    rw [hlen]
    omega
  · intro j hj
    rw [hd]
    exact List.getElem?_set_ne (Ne.symm hj)

/-- C2 witness: a draw at 401.5 gradians on the constructed state writes bin 1. -/
theorem C2_witness :
    ∃ s' : State ℝ,
      draw Real.pi Real.cos Real.sin whiteMapper [1] (803 / 2) 0 1000 (1 / 2) init = some s' ∧
      (0 ≤ ⌊(803 / 2 : ℝ)⌋ % 400 ∧ ⌊(803 / 2 : ℝ)⌋ % 400 < 400 ∧
        s'._distances.length = 400 ∧
        s'._distances[(⌊(803 / 2 : ℝ)⌋ % 400).toNat]? = some (0 + 1000) ∧
        ∀ j : Nat, j ≠ (⌊(803 / 2 : ℝ)⌋ % 400).toNat →
          s'._distances[j]? = (init : State ℝ)._distances[j]?) := by
  have hfl : ⌊(803 / 2 : ℝ)⌋ = 401 := by
    rw [Int.floor_eq_iff]
    norm_num
  have hlen : (init : State ℝ)._distances.length = 400 := by
    simp only [init, List.length_replicate]
  obtain ⟨s', h⟩ := real_draw_isSome whiteMapper [1] (803 / 2) 0 1000 (1 / 2) init
    hlen (by norm_num) (by rw [hfl]; norm_num) (by simp) (by simp) (by norm_num)
  exact ⟨s', h, C2_ring_write _ _ _ _ _ _ _ _ _ _ _ hlen (by norm_num)
    (by rw [hfl]; norm_num) h⟩

/-- C3 (as amended): at a radius `i ≥ 1` with `step(i) > 0` and a substep
`k < step(i)`, with `π > 0`, the pixel is placed at the angle
`angle·π/200 − π/2 + (angleGrad·π/200)·((2k − step)/(2·step))`: the offset from
the centre azimuth is half the one of the specification, so the wedge spans
`angleGrad/2` gradians on each side of `angle` (total extent `angleGrad`). -/
theorem C3_angleStep_half_width (pi : α) (cos sin : α → α) (angle angleGrad : α) (i k : Nat)
    (hpi : 0 < pi) (hi : 1 ≤ i) (hs : 0 < step pi angleGrad i)
    (hk : (k : Int) < step pi angleGrad i) :
    angleStep pi angle angleGrad i k
        = angle * pi / 200 - pi / 2
          + angleGrad * pi / 200
            * ((2 * (k : α) - (step pi angleGrad i : α)) / (2 * (step pi angleGrad i : α))) ∧
      angle * pi / 200 - pi / 2 - angleGrad / 2 * (pi / 200)
        ≤ angleStep pi angle angleGrad i k ∧
      angleStep pi angle angleGrad i k
        < angle * pi / 200 - pi / 2 + angleGrad / 2 * (pi / 200) ∧
      ∀ (c : QColor) (img img' : QImage),
        paintStep pi cos sin angle angleGrad i c img k = some img' →
        ∃ x y,
          castInt ((center : α) + (i : α) * cos (angle * pi / 200 - pi / 2
            + angleGrad * pi / 200
              * ((2 * (k : α) - (step pi angleGrad i : α)) / (2 * (step pi angleGrad i : α)))))
            = some x ∧
          castInt ((center : α) + (i : α) * sin (angle * pi / 200 - pi / 2
            + angleGrad * pi / 200
              * ((2 * (k : α) - (step pi angleGrad i : α)) / (2 * (step pi angleGrad i : α)))))
            = some y ∧
          img' = setPixelColor img x y c := by
  have hS : (0 : α) < (step pi angleGrad i : α) := by exact_mod_cast hs
  have hkS : (k : α) < (step pi angleGrad i : α) := by exact_mod_cast hk
  have hk0 : (0 : α) ≤ (k : α) := Nat.cast_nonneg k
  have hw : 0 < angleGrad := by
    have h1 : (0 : α) < (i : α) * (2 * (pi / 180) * angleGrad) := by
      have := Int.ceil_pos.mp hs
      simpa [step] using this
    have hi0 : (0 : α) < (i : α) := by exact_mod_cast hi
    by_contra hneg
    have hneg' : angleGrad ≤ 0 := not_lt.mp hneg
    have : (i : α) * (2 * (pi / 180) * angleGrad) ≤ 0 := by
      apply mul_nonpos_of_nonneg_of_nonpos hi0.le
      apply mul_nonpos_of_nonneg_of_nonpos _ hneg'
      positivity
    linarith
  have hformula := angleStep_eq pi angle angleGrad i k (ne_of_gt hs)
  have hfac : 0 < angleGrad * pi / 200 := by positivity
  have hlo : -(1 / 2 : α)
      ≤ (2 * (k : α) - (step pi angleGrad i : α)) / (2 * (step pi angleGrad i : α)) := by
    rw [le_div_iff₀ (by positivity)]
    linarith
  have hhi : (2 * (k : α) - (step pi angleGrad i : α)) / (2 * (step pi angleGrad i : α))
      < 1 / 2 := by
    rw [div_lt_iff₀ (by positivity)]
    linarith
  refine ⟨hformula, ?_, ?_, ?_⟩
  · rw [hformula]
    nlinarith
  · rw [hformula]
    nlinarith
  · intro c img img' hp
    rw [← hformula]
    exact paintStep_eq_some hp

/-- C3 witness: the outermost radius of scenario S1 (`angle = 0`,
`angleGrad = 0.5`), first substep. -/
theorem C3_witness :
    0 < Real.pi ∧ 1 ≤ 1249 ∧ 0 < step Real.pi (1 / 2) 1249 ∧
      ((0 : Nat) : Int) < step Real.pi (1 / 2) 1249 ∧
      angleStep Real.pi 0 (1 / 2) 1249 0
        = 0 * Real.pi / 200 - Real.pi / 2
          + 1 / 2 * Real.pi / 200
            * ((2 * ((0 : Nat) : ℝ) - (step Real.pi (1 / 2) 1249 : ℝ))
              / (2 * (step Real.pi (1 / 2) 1249 : ℝ))) :=
  ⟨Real.pi_pos, by norm_num, by rw [real_step_half_1249]; norm_num,
    by rw [real_step_half_1249]; norm_num,
    (C3_angleStep_half_width Real.pi Real.cos Real.sin 0 (1 / 2) 1249 0 Real.pi_pos
      (by norm_num) (by rw [real_step_half_1249]; norm_num)
      (by rw [real_step_half_1249]; norm_num)).1⟩

/-- C3 (as stated) fails: in scenario S1 (`angle = 0`, `angleGrad = 0.5`) the
radius 1249 has 22 substeps, and substep 0 is placed at `−π/2 − π/800`
(a quarter of a gradian from the centre azimuth), not at the angle
`−π/2 − π/400` of the specification (half a gradian). -/
theorem C3_counterexample :
    1 ≤ 1249 ∧ 1249 < center ∧ step Real.pi (1 / 2) 1249 = 22 ∧
      angleStep Real.pi 0 (1 / 2) 1249 0 = -(Real.pi / 2) - Real.pi / 800 ∧
      specTheta Real.pi 0 (1 / 2) (step Real.pi (1 / 2) 1249) 0
        = -(Real.pi / 2) - Real.pi / 400 ∧
      angleStep Real.pi 0 (1 / 2) 1249 0
        ≠ specTheta Real.pi 0 (1 / 2) (step Real.pi (1 / 2) 1249) 0 := by
  have hpi := Real.pi_pos
  have ha : angleStep Real.pi 0 (1 / 2) 1249 0 = -(Real.pi / 2) - Real.pi / 800 := by
    rw [angleStep_eq Real.pi 0 (1 / 2) 1249 0 (by rw [real_step_half_1249]; norm_num),
      real_step_half_1249]
    push_cast
    ring
  have hb : specTheta Real.pi 0 (1 / 2) (step Real.pi (1 / 2) 1249) 0
      = -(Real.pi / 2) - Real.pi / 400 := by
    rw [real_step_half_1249]
    unfold specTheta
    push_cast
    ring
  refine ⟨by norm_num, by norm_num [center], real_step_half_1249, ha, hb, ?_⟩
  rw [ha, hb]
  intro h
  linarith

/-- C4 (as amended): when `cos² + sin² ≤ 1`, in every state reachable from the
constructor by `draw` and `clear` calls every pixel that is not transparent
lies less than `R/2 + 1 = 1251` pixels from the centre `(1250, 1250)`. -/
theorem C4_pixels_within_one_of_disc (pi : α) (cos sin : α → α) (valueToRGB : α → QColor)
    (hcs : ∀ x, cos x ^ 2 + sin x ^ 2 ≤ 1) (s : State α)
    (h : Reachable pi cos sin valueToRGB s) (x y : Int) (hpx : s._image x y ≠ transparent) :
    (x - 1250) ^ 2 + (y - 1250) ^ 2 < 1251 ^ 2 := by
  unfold Reachable at h
  induction h with
  | init => exact absurd rfl hpx
  | clear _ _ => exact absurd rfl hpx
  | draw _ _ hd ih =>
    obtain ⟨m, -, -, -, hp⟩ := draw_eq_some hd
    rcases paint_written hp x y with h1 | h1
    · rw [h1] at hpx
      exact ih hpx
    · exact written_bound hcs h1

/-- C4 witness: the pixel `(366, 366)`, painted white by a draw at 350
gradians on a cleared plot. -/
theorem C4_witness :
    ∃ s' : State ℝ,
      draw Real.pi Real.cos Real.sin whiteMapper [1] 350 0 1000 (1 / 32) (clear init)
        = some s' ∧
      s'._image 366 366 ≠ transparent ∧
      ((366 : Int) - 1250) ^ 2 + ((366 : Int) - 1250) ^ 2 < 1251 ^ 2 := by
  have hfl : ⌊(350 : ℝ)⌋ = 350 := by
    rw [Int.floor_eq_iff]
    norm_num
  obtain ⟨s', h⟩ := real_draw_isSome whiteMapper [1] 350 0 1000 (1 / 32) (clear init)
    (by simp only [clear, List.length_replicate]) (by norm_num) (by rw [hfl]; norm_num)
    (by simp) (by simp) (by norm_num)
  have hpx : s'._image 366 366 ≠ transparent := by
    rw [real_corner_pixel h]
    decide
  have hr : Reachable Real.pi Real.cos Real.sin whiteMapper s' :=
    ReachableWith.draw (ReachableWith.clear ReachableWith.init) trivial h
  exact ⟨s', h, hpx, C4_pixels_within_one_of_disc Real.pi Real.cos Real.sin whiteMapper
    (fun x => by rw [add_comm]; exact le_of_eq (Real.sin_sq_add_cos_sq x)) s' hr 366 366 hpx⟩

/-- C4 (as stated) fails: one draw of a wedge of 1/32 gradian at 350 gradians
on a cleared plot paints the pixel `(366, 366)`, whose squared distance from
the centre, `2 · 884² = 1562912`, exceeds `1250² = 1562500`. -/
theorem C4_counterexample :
    ∃ s' : State ℝ,
      draw Real.pi Real.cos Real.sin whiteMapper [1] 350 0 1000 (1 / 32) (clear init)
        = some s' ∧
      s'._image 366 366 ≠ transparent ∧
      ¬ ((366 : Int) - 1250) ^ 2 + ((366 : Int) - 1250) ^ 2 ≤ 1250 ^ 2 := by
  have hfl : ⌊(350 : ℝ)⌋ = 350 := by
    rw [Int.floor_eq_iff]
    norm_num
  obtain ⟨s', h⟩ := real_draw_isSome whiteMapper [1] 350 0 1000 (1 / 32) (clear init)
    (by simp only [clear, List.length_replicate]) (by norm_num) (by rw [hfl]; norm_num)
    (by simp) (by simp) (by norm_num)
  refine ⟨s', h, ?_, by norm_num⟩
  rw [real_corner_pixel h]
  decide

/-- C7 (as amended): in every state reachable from the constructor by `clear`
calls and by `draw` calls with `initPoint + length ≥ 0`, `_maxDistance ≥ 0` and
every ring entry is non-negative. -/
theorem C7_nonneg_when_ranges_nonneg (pi : α) (cos sin : α → α) (valueToRGB : α → QColor)
    (s : State α)
    (h : ReachableWith pi cos sin valueToRGB (fun initPoint length => 0 ≤ initPoint + length) s) :
    0 ≤ s._maxDistance ∧ ∀ d ∈ s._distances, 0 ≤ d := by
  induction h with
  | init =>
    refine ⟨le_refl 0, fun d hd => ?_⟩
    simp only [init] at hd
    rw [List.eq_of_mem_replicate hd]
  | clear _ _ =>
    refine ⟨le_refl 0, fun d hd => ?_⟩
    simp only [clear] at hd
    rw [List.eq_of_mem_replicate hd]
  | draw hs hok hd ih =>
    refine ⟨draw_maxDistance_nonneg (reachable_length hs) ih.2 ih.1 hd, fun d hmem => ?_⟩
    obtain ⟨m, h1, -⟩ := draw_eq_some hd
    rcases setDistance_mem h1 hmem with h2 | h2
    · exact ih.2 d h2
    · rw [h2]
      exact hok

/-- C7 witness: the state after the first draw of scenario S1. -/
theorem C7_witness :
    ∃ s' : State ℝ,
      draw Real.pi Real.cos Real.sin whiteMapper [1] 0 0 1000 (1 / 2) init = some s' ∧
      (0 ≤ s'._maxDistance ∧ ∀ d ∈ s'._distances, 0 ≤ d) := by
  obtain ⟨s', h⟩ := real_draw_isSome whiteMapper [1] 0 0 1000 (1 / 2) init
    (by simp only [init, List.length_replicate]) (le_refl 0) (by simp) (by simp) (by simp)
    (by norm_num)
  exact ⟨s', h, C7_nonneg_when_ranges_nonneg Real.pi Real.cos Real.sin whiteMapper s'
    (ReachableWith.draw ReachableWith.init (by norm_num) h)⟩

/-- C7 (as stated) fails: `draw(points, 0, 0, -1, 0.5)` on the constructed
state leaves the ring entry `-1` in bin 0, and a sweep of all 400 bins with
length `-1` reaches a state with `_maxDistance = -1`. -/
theorem C7_counterexample :
    (∃ s' : State ℝ,
      draw Real.pi Real.cos Real.sin whiteMapper [1] 0 0 (-1) (1 / 2) init = some s' ∧
      Reachable Real.pi Real.cos Real.sin whiteMapper s' ∧
      s'._distances[0]? = some (-1 : ℝ) ∧ ∃ d ∈ s'._distances, d < 0) ∧
    ∃ s : State ℝ, Reachable Real.pi Real.cos Real.sin whiteMapper s ∧
      s._maxDistance = -1 ∧ s._maxDistance < 0 := by
  constructor
  · have hlen : (init : State ℝ)._distances.length = 400 := by
      simp only [init, List.length_replicate]
    obtain ⟨s', h⟩ := real_draw_isSome whiteMapper [1] 0 0 (-1) (1 / 2) init hlen
      (le_refl 0) (by simp) (by simp) (by simp) (by norm_num)
    have hd := draw_distances hlen (le_refl 0) (by simp) h
    rw [floor_zero_mod, zero_add] at hd
    have h0 : s'._distances[0]? = some (-1 : ℝ) := by
      rw [hd]
      exact List.getElem?_set_self (by rw [hlen]; norm_num)
    exact ⟨s', h, ReachableWith.draw ReachableWith.init trivial h, h0, -1,
      List.mem_iff_getElem?.mpr ⟨0, h0⟩, by norm_num⟩
  · obtain ⟨s, s', hr, h, hm, -⟩ := real_sweep_last
    exact ⟨s', ReachableWith.draw hr trivial h, hm, by rw [hm]; norm_num⟩

/-- C8: with `π ≤ 4`, a cosine and sine in `[-1, 1]` and a non-empty `points`,
from a cleared state `draw(points, 0, 0, 1000, 0.5)` succeeds and leaves
`_maxDistance = 1000`, and the following `draw(points, 0, 0, 100, 0.5)`
succeeds and leaves `_maxDistance = 100`. -/
theorem C8_maxDistance_decreases (pi : α) (cos sin : α → α) (valueToRGB : α → QColor)
    (points : List α) (s : State α)
    (hpi0 : 0 ≤ pi) (hpi : pi ≤ 4) (hcos : ∀ x, |cos x| ≤ 1) (hsin : ∀ x, |sin x| ≤ 1)
    (hp : points ≠ []) (hP : points.length ≤ 2147483647) :
    ∃ s₁ s₂ : State α,
      draw pi cos sin valueToRGB points 0 0 1000 (1 / 2) (clear s) = some s₁ ∧
      s₁._maxDistance = 1000 ∧
      draw pi cos sin valueToRGB points 0 0 100 (1 / 2) s₁ = some s₂ ∧
      s₂._maxDistance = 100 := by
  have hlen : (clear s)._distances.length = 400 := by
    simp only [clear, List.length_replicate]
  have hfl : ⌊(0 : α)⌋ ≤ 2147483647 := by simp
  have hcol : ∀ (length maxD : α) (i : Nat), 1 ≤ i → i < center →
      ∃ c, pointColor valueToRGB points length maxD i = some c :=
    fun _ _ _ hi1 hi2 => pointColor_isSome hp hP hi1 hi2
  have hstep : ∀ i, 1 ≤ i → i < center → step pi (1 / 2 : α) i ≤ 2147483647 :=
    fun _ _ hi2 => step_le hpi0 hpi (by norm_num) hi2
  obtain ⟨s₁, h1⟩ := draw_isSome valueToRGB 0 1000 hlen (le_refl 0) hfl (hcol 1000)
    hstep hcos hsin
  have hd0 : (clear s)._distances = (List.replicate 400 0).set 0 0 := by
    simp only [clear, List.set_replicate_self]
  obtain ⟨hd1, -, hm1⟩ := draw_bin_zero hd0 (by norm_num) h1
  have hlen1 : s₁._distances.length = 400 := by
    rw [hd1, List.length_set, List.length_replicate]
  obtain ⟨s₂, h2⟩ := draw_isSome valueToRGB 0 100 hlen1 (le_refl 0) hfl (hcol 100)
    hstep hcos hsin
  obtain ⟨-, -, hm2⟩ := draw_bin_zero hd1 (by norm_num) h2
  have e1 : s₁._maxDistance = 1000 := by
    rw [hm1, zero_add]
    simp only [clear]
    exact updateMaxDistance_1000_0
  refine ⟨s₁, s₂, h1, e1, h2, ?_⟩
  rw [hm2, e1, zero_add]
  exact updateMaxDistance_100_1000

/-- C8 witness: the two draws of scenarios S1 and S2 over the reals, with 50
samples of value 1, from the cleared constructed state. -/
theorem C8_witness :
    0 ≤ Real.pi ∧ Real.pi ≤ 4 ∧ List.replicate 50 (1 : ℝ) ≠ [] ∧
    ∃ s₁ s₂ : State ℝ,
      draw Real.pi Real.cos Real.sin whiteMapper (List.replicate 50 1) 0 0 1000 (1 / 2)
        (clear init) = some s₁ ∧
      s₁._maxDistance = 1000 ∧
      draw Real.pi Real.cos Real.sin whiteMapper (List.replicate 50 1) 0 0 100 (1 / 2) s₁
        = some s₂ ∧
      s₂._maxDistance = 100 :=
  ⟨Real.pi_pos.le, Real.pi_le_four, by simp,
    C8_maxDistance_decreases Real.pi Real.cos Real.sin whiteMapper (List.replicate 50 1) init
      Real.pi_pos.le Real.pi_le_four Real.abs_cos_le_one Real.abs_sin_le_one (by simp)
      (by rw [List.length_replicate]; norm_num)⟩

/-- C9 (as amended): over the reals, for a cursor at the normalized position
`ρ (cos φ, sin φ)` with `0 < ρ ≤ 1`, the resolver succeeds and the reported
`sampleAngle` equals `φ` in degrees plus 90, modulo 360, within the width of one
bin: `0 ≤ φ·180/π + 90 + 360 n − sampleAngle < 360/400` for an integer `n`. -/
theorem C9_cursor_angle_is_phi_plus_90 (φ ρ width height maxD : ℝ) (w : Cursor ℝ)
    (hρ : 0 < ρ) (hρ1 : ρ ≤ 1)
    (hδ : delta width height w._mousePos = (ρ * Real.cos φ, ρ * Real.sin φ)) :
    ∃ (w' : Cursor ℝ) (n : Int),
      updateMouseColumnData Real.pi (fun y x => Complex.arg ⟨x, y⟩)
        (fun x y => √(x ^ 2 + y ^ 2)) width height maxD w = some w' ∧
      0 ≤ φ * 180 / Real.pi + 90 + 360 * (n : ℝ) - w'._mouseSampleAngle ∧
      φ * 180 / Real.pi + 90 + 360 * (n : ℝ) - w'._mouseSampleAngle < 360 / 400 := by
  obtain ⟨ψ, m, hψ, hψeq, hc, hs⟩ := real_polar_representative φ
  have hd : delta width height w._mousePos = (-(ρ * Real.sin ψ), ρ * Real.cos ψ) := by
    rw [hδ, hc, hs, mul_neg]
  have hu := real_update_polar ρ ψ width height maxD w hρ hρ1 hψ hd
  obtain ⟨hlo, hhi⟩ := real_grad_bounds ψ hψ
  have hpi := Real.pi_pos
  have hkey : (ψ * (200 / Real.pi) + 200) * (180 / 200)
      = φ * 180 / Real.pi + 90 - 360 * (m : ℝ) := by
    rw [hψeq]
    field_simp
    ring
  have hf0 : 0 ≤ ⌊ψ * (200 / Real.pi) + 200⌋ := Int.floor_nonneg.mpr hlo.le
  have hfle : ((⌊ψ * (200 / Real.pi) + 200⌋ : Int) : ℝ) ≤ ψ * (200 / Real.pi) + 200 :=
    Int.floor_le _
  have hflt : ψ * (200 / Real.pi) + 200 < ((⌊ψ * (200 / Real.pi) + 200⌋ : Int) : ℝ) + 1 :=
    Int.lt_floor_add_one _
  by_cases ht : ψ * (200 / Real.pi) + 200 < 400
  · have hf4 : ⌊ψ * (200 / Real.pi) + 200⌋ < 400 := Int.floor_lt.mpr (by push_cast; exact ht)
    have hmod : ⌊ψ * (200 / Real.pi) + 200⌋ % 400 = ⌊ψ * (200 / Real.pi) + 200⌋ :=
      Int.emod_eq_of_lt hf0 hf4
    refine ⟨_, -m, hu, ?_, ?_⟩
    · simp only [hmod]
      push_cast
      linarith
    · simp only [hmod]
      push_cast
      linarith
  · have ht4 : ψ * (200 / Real.pi) + 200 = 400 := le_antisymm hhi (not_lt.mp ht)
    have hf4 : ⌊ψ * (200 / Real.pi) + 200⌋ = 400 := by
      rw [ht4, Int.floor_eq_iff]
      norm_num
    refine ⟨_, -m - 1, hu, ?_, ?_⟩
    · simp only [hf4]
      rw [ht4] at hkey
      push_cast
      norm_num
      linarith
    · simp only [hf4]
      rw [ht4] at hkey
      push_cast
      norm_num
      linarith

/-- C9 witness: the cursor `(200, 100)` of a 200 × 200 view, at `φ = 0`,
`ρ = 1`. -/
theorem C9_witness :
    (0 : ℝ) < 1 ∧ (1 : ℝ) ≤ 1 ∧
    delta (200 : ℝ) 200 (⟨(200, 100), false, 0, 0⟩ : Cursor ℝ)._mousePos
      = (1 * Real.cos 0, 1 * Real.sin 0) ∧
    ∃ (w' : Cursor ℝ) (n : Int),
      updateMouseColumnData Real.pi (fun y x => Complex.arg ⟨x, y⟩)
        (fun x y => √(x ^ 2 + y ^ 2)) 200 200 500 ⟨(200, 100), false, 0, 0⟩ = some w' ∧
      0 ≤ 0 * 180 / Real.pi + 90 + 360 * (n : ℝ) - w'._mouseSampleAngle ∧
      0 * 180 / Real.pi + 90 + 360 * (n : ℝ) - w'._mouseSampleAngle < 360 / 400 := by
  have hδ : delta (200 : ℝ) 200 (⟨(200, 100), false, 0, 0⟩ : Cursor ℝ)._mousePos
      = (1 * Real.cos 0, 1 * Real.sin 0) := by
    rw [Real.cos_zero, Real.sin_zero]
    simp only [(real_three_oclock 500 false 0 0).1]
    norm_num
  exact ⟨one_pos, le_refl 1, hδ,
    C9_cursor_angle_is_phi_plus_90 0 1 200 200 500 ⟨(200, 100), false, 0, 0⟩ one_pos
      (le_refl 1) hδ⟩

/-- C9 (as stated) fails: for the cursor `(200, 100)` of a 200 × 200 view, at
`φ = 0` and `ρ = 1`, the resolver reports `sampleAngle = 90`, so that
`(sampleAngle + 90) mod 360 = 180` while `((−φ in degrees) + 360) mod 360 = 0`:
the two differ by 180 degrees, not by at most `360/400`. -/
theorem C9_counterexample :
    delta (200 : ℝ) 200 ((200, 100) : ℝ × ℝ) = (1 * Real.cos 0, 1 * Real.sin 0) ∧
    ∃ w' : Cursor ℝ,
      updateMouseColumnData Real.pi (fun y x => Complex.arg ⟨x, y⟩)
        (fun x y => √(x ^ 2 + y ^ 2)) 200 200 500 ⟨(200, 100), false, 0, 0⟩ = some w' ∧
      w'._mouseSampleAngle = 90 ∧
      mod360 (w'._mouseSampleAngle + 90) = 180 ∧
      mod360 (-(0 * 180 / Real.pi) + 360) = 0 ∧
      ¬ |mod360 (w'._mouseSampleAngle + 90) - mod360 (-(0 * 180 / Real.pi) + 360)|
          ≤ 360 / 400 := by
  obtain ⟨hdel, w', hu, ha⟩ := real_three_oclock 500 false 0 0
  have h1 : mod360 ((90 : ℝ) + 90) = 180 := by
    have hf : ⌊((90 : ℝ) + 90) / 360⌋ = 0 := by
      rw [Int.floor_eq_iff]
      norm_num
    unfold mod360
    rw [hf]
    norm_num
  have h2 : mod360 (-(0 * 180 / Real.pi) + 360) = 0 := by
    have hf : ⌊(-(0 * 180 / Real.pi) + 360) / 360⌋ = 1 := by
      rw [Int.floor_eq_iff]
      norm_num
    unfold mod360
    rw [hf]
    norm_num
  refine ⟨?_, w', hu, ha, ?_, h2, ?_⟩
  · rw [hdel, Real.cos_zero, Real.sin_zero]
    norm_num
  · rw [ha]
    exact h1
  · rw [ha, h1, h2]
    norm_num

/-- C10: over the reals, for an azimuth `a ∈ [0, 400)` gradians and
`0 < ρ ≤ 1`, a cursor at the normalized position `ρ (cos θ, sin θ)` with
`θ = a·π/200 − π/2`, the angle at which `draw` places the substep in the middle
of the wedge of azimuth `a`, resolves to `grad = ⌊a⌋` and
`sampleAngle = 0.9·⌊a⌋` degrees, and `⌊a⌋` is the ring index that `draw` writes
for the angle `a`. -/
theorem C10_cursor_inverts_painter (a ρ width height maxD : ℝ) (w : Cursor ℝ)
    (ha0 : 0 ≤ a) (ha : a < 400) (hρ : 0 < ρ) (hρ1 : ρ ≤ 1)
    (hδ : delta width height w._mousePos
      = (ρ * Real.cos (a * Real.pi / 200 - Real.pi / 2),
         ρ * Real.sin (a * Real.pi / 200 - Real.pi / 2))) :
    grad Real.pi (fun y x => Complex.arg ⟨x, y⟩) (delta width height w._mousePos)
      = some ⌊a⌋ ∧
    (∃ w' : Cursor ℝ,
      updateMouseColumnData Real.pi (fun y x => Complex.arg ⟨x, y⟩)
        (fun x y => √(x ^ 2 + y ^ 2)) width height maxD w = some w' ∧
      w'._mouseSampleAngle = 9 / 10 * (⌊a⌋ : ℝ)) ∧
    (∀ (distances : List ℝ) (value : ℝ), distances.length = 400 →
      setDistance distances a value = some (distances.set ⌊a⌋.toNat value)) ∧
    ∀ (angleGrad : ℝ) (i k : Nat), step Real.pi angleGrad i ≠ 0 →
      2 * (k : ℝ) = (step Real.pi angleGrad i : ℝ) →
      angleStep Real.pi a angleGrad i k = a * Real.pi / 200 - Real.pi / 2 := by
  have hpi := Real.pi_pos
  have hfa0 : 0 ≤ ⌊a⌋ := Int.floor_nonneg.mpr ha0
  have hfa4 : ⌊a⌋ < 400 := Int.floor_lt.mpr (by push_cast; exact ha)
  have hmoda : ⌊a⌋ % 400 = ⌊a⌋ := Int.emod_eq_of_lt hfa0 hfa4
  -- the polar position of the cursor in the resolver's convention
  have hpol : ∃ ψ : ℝ, ψ ∈ Set.Ioc (-Real.pi) Real.pi ∧
      delta width height w._mousePos = (-(ρ * Real.sin ψ), ρ * Real.cos ψ) ∧
      ⌊ψ * (200 / Real.pi) + 200⌋ % 400 = ⌊a⌋ := by
    rcases eq_or_lt_of_le ha0 with h0 | hpos
    · refine ⟨Real.pi, ⟨by linarith, le_refl _⟩, ?_, ?_⟩
      · rw [hδ, ← h0, Real.sin_pi, Real.cos_pi]
        have e : (0 : ℝ) * Real.pi / 200 - Real.pi / 2 = -(Real.pi / 2) := by ring
        rw [e, Real.cos_neg, Real.sin_neg, Real.cos_pi_div_two, Real.sin_pi_div_two]
        norm_num
      · have e : Real.pi * (200 / Real.pi) + 200 = 400 := by
          field_simp
          ring
        have hf : ⌊(400 : ℝ)⌋ = 400 := by
          rw [Int.floor_eq_iff]
          norm_num
        have hz : ⌊(0 : ℝ)⌋ = 0 := Int.floor_zero
        rw [e, hf, ← h0, hz]
        rfl
    · refine ⟨a * Real.pi / 200 - Real.pi, ⟨?_, ?_⟩, ?_, ?_⟩
      · have : 0 < a * Real.pi / 200 := by positivity
        linarith
      · have : a * Real.pi / 200 < 2 * Real.pi := by
          rw [div_lt_iff₀ (by norm_num)]
          nlinarith
        linarith
      · rw [hδ, Real.cos_sub_pi_div_two, Real.sin_sub_pi_div_two, Real.sin_sub_pi,
          Real.cos_sub_pi]
        simp only [mul_neg, neg_neg]
      · have e : (a * Real.pi / 200 - Real.pi) * (200 / Real.pi) + 200 = a := by
          field_simp
        rw [e]
        exact hmoda
  obtain ⟨ψ, hψ, hd, hfl⟩ := hpol
  refine ⟨?_, ?_, ?_, ?_⟩
  · rw [hd, real_grad_polar ρ ψ hρ hψ, hfl]
  · refine ⟨_, real_update_polar ρ ψ width height maxD w hρ hρ1 hψ hd, ?_⟩
    simp only [hfl]
    ring
  · intro distances value hlen
    rw [setDistance_of_nonneg distances a value hlen ha0 (by omega), hmoda]
  · intro angleGrad i k hs hk
    rw [angleStep_eq Real.pi a angleGrad i k hs, hk]
    ring

/-- C10 witness: the azimuth 100 gradians, whose centre ray points to
3 o'clock, with the cursor `(200, 100)` of a 200 × 200 view. -/
theorem C10_witness :
    (0 : ℝ) ≤ 100 ∧ (100 : ℝ) < 400 ∧ (0 : ℝ) < 1 ∧ (1 : ℝ) ≤ 1 ∧
    grad Real.pi (fun y x => Complex.arg ⟨x, y⟩)
      (delta 200 200 (⟨(200, 100), false, 0, 0⟩ : Cursor ℝ)._mousePos) = some ⌊(100 : ℝ)⌋ := by
  have hδ : delta (200 : ℝ) 200 (⟨(200, 100), false, 0, 0⟩ : Cursor ℝ)._mousePos
      = (1 * Real.cos (100 * Real.pi / 200 - Real.pi / 2),
         1 * Real.sin (100 * Real.pi / 200 - Real.pi / 2)) := by
    have e : (100 : ℝ) * Real.pi / 200 - Real.pi / 2 = 0 := by ring
    rw [e, Real.cos_zero, Real.sin_zero]
    simp only [(real_three_oclock 500 false 0 0).1]
    norm_num
  exact ⟨by norm_num, by norm_num, one_pos, le_refl 1,
    (C10_cursor_inverts_painter 100 1 200 200 500 ⟨(200, 100), false, 0, 0⟩ (by norm_num)
      (by norm_num) one_pos (le_refl 1) hδ).1⟩

/-- C11: over the reals, whenever the cursor is inside or on the inscribed disc
of a view with non-zero sides, the resolver succeeds with the bin
`(⌊atan2(−δ_x, δ_y) · 200/π⌋ + 200) mod 400`, which lies in `[0, 399]`, and
reports `sampleAngle = 0.9 · grad` in `[0, 360)`; in a 200 × 200 view the cursor
`(100, 50)` gives `sampleAngle = 0` and the cursor `(150, 100)` gives
`sampleAngle = 90`. -/
theorem C11_grad_formula_and_range :
    (∀ (width height maxD : ℝ) (w : Cursor ℝ), min width height ≠ 0 →
      √((delta width height w._mousePos).1 ^ 2 + (delta width height w._mousePos).2 ^ 2) ≤ 1 →
      ∃ w' : Cursor ℝ,
        updateMouseColumnData Real.pi (fun y x => Complex.arg ⟨x, y⟩)
          (fun x y => √(x ^ 2 + y ^ 2)) width height maxD w = some w' ∧
        grad Real.pi (fun y x => Complex.arg ⟨x, y⟩) (delta width height w._mousePos)
          = some (specGrad Real.pi (fun y x => Complex.arg ⟨x, y⟩)
            (delta width height w._mousePos)) ∧
        0 ≤ specGrad Real.pi (fun y x => Complex.arg ⟨x, y⟩) (delta width height w._mousePos) ∧
        specGrad Real.pi (fun y x => Complex.arg ⟨x, y⟩) (delta width height w._mousePos)
          ≤ 399 ∧
        w'._mouseSampleAngle
          = 9 / 10 * ((specGrad Real.pi (fun y x => Complex.arg ⟨x, y⟩)
              (delta width height w._mousePos) : Int) : ℝ) ∧
        0 ≤ w'._mouseSampleAngle ∧ w'._mouseSampleAngle < 360) ∧
    (∀ (c : Bool) (a d : ℝ), ∃ w' : Cursor ℝ,
      updateMouseColumnData Real.pi (fun y x => Complex.arg ⟨x, y⟩)
        (fun x y => √(x ^ 2 + y ^ 2)) 200 200 500 ⟨(100, 50), c, a, d⟩ = some w' ∧
      w'._mouseSampleAngle = 0) ∧
    (∀ (c : Bool) (a d : ℝ), ∃ w' : Cursor ℝ,
      updateMouseColumnData Real.pi (fun y x => Complex.arg ⟨x, y⟩)
        (fun x y => √(x ^ 2 + y ^ 2)) 200 200 500 ⟨(150, 100), c, a, d⟩ = some w' ∧
      w'._mouseSampleAngle = 90) := by
  refine ⟨?_, ?_, ?_⟩
  · intro width height maxD w _ h
    obtain ⟨hg, hg0, hg1⟩ := real_grad_eq_spec (delta width height w._mousePos)
    have hg0' : (0 : ℝ) ≤ ((specGrad Real.pi (fun y x => Complex.arg ⟨x, y⟩)
        (delta width height w._mousePos) : Int) : ℝ) := by exact_mod_cast hg0
    have hg1' : ((specGrad Real.pi (fun y x => Complex.arg ⟨x, y⟩)
        (delta width height w._mousePos) : Int) : ℝ) ≤ 399 := by exact_mod_cast hg1
    refine ⟨_, real_update_inside width height maxD w (not_lt.mpr h), hg, hg0, hg1, ?_, ?_, ?_⟩
    · simp only
      ring
    · simp only
      linarith
    · simp only
      linarith
  · intro c a d
    exact ⟨_, (real_twelve_oclock 500 c a d).2, rfl⟩
  · intro c a d
    exact ⟨_, (real_three_oclock_half 500 c a d).2, rfl⟩

/-- C11 witness: the cursor `(150, 100)` of a 200 × 200 view, at
`delta = (1/2, 0)`. -/
theorem C11_witness :
    min (200 : ℝ) 200 ≠ 0 ∧
    √((delta (200 : ℝ) 200 (⟨(150, 100), false, 0, 0⟩ : Cursor ℝ)._mousePos).1 ^ 2
      + (delta (200 : ℝ) 200 (⟨(150, 100), false, 0, 0⟩ : Cursor ℝ)._mousePos).2 ^ 2) ≤ 1 ∧
    ∃ w' : Cursor ℝ,
      updateMouseColumnData Real.pi (fun y x => Complex.arg ⟨x, y⟩)
        (fun x y => √(x ^ 2 + y ^ 2)) 200 200 500 ⟨(150, 100), false, 0, 0⟩ = some w' ∧
      0 ≤ w'._mouseSampleAngle ∧ w'._mouseSampleAngle < 360 := by
  have hmin : min (200 : ℝ) 200 ≠ 0 := by norm_num
  have hin : √((delta (200 : ℝ) 200 (⟨(150, 100), false, 0, 0⟩ : Cursor ℝ)._mousePos).1 ^ 2
      + (delta (200 : ℝ) 200 (⟨(150, 100), false, 0, 0⟩ : Cursor ℝ)._mousePos).2 ^ 2) ≤ 1 := by
    simp only [(real_three_oclock_half 500 false 0 0).1]
    rw [Real.sqrt_le_iff]
    norm_num
  obtain ⟨w', hu, -, -, -, -, h0, h1⟩ :=
    C11_grad_formula_and_range.1 200 200 500 ⟨(150, 100), false, 0, 0⟩ hmin hin
  exact ⟨hmin, hin, w', hu, h0, h1⟩

/-- C12 on the code: over the reals, for a cursor that is not outside the disc
the resolver leaves `_containsMouse` as it was; in a 200 × 200 view with the
cursor at `(100, 50)`, inside the disc, and `_containsMouse = false` before the
call, `_containsMouse` is still `false` after it. -/
theorem C12_containsMouse_left_unchanged :
    (∀ (width height maxD : ℝ) (w : Cursor ℝ),
      √((delta width height w._mousePos).1 ^ 2 + (delta width height w._mousePos).2 ^ 2) ≤ 1 →
      ∃ w' : Cursor ℝ,
        updateMouseColumnData Real.pi (fun y x => Complex.arg ⟨x, y⟩)
          (fun x y => √(x ^ 2 + y ^ 2)) width height maxD w = some w' ∧
        w'._containsMouse = w._containsMouse) ∧
    delta (200 : ℝ) 200 ((100, 50) : ℝ × ℝ) = (0, -(1 / 2)) ∧
    √((0 : ℝ) ^ 2 + (-(1 / 2)) ^ 2) ≤ 1 ∧
    ∃ w' : Cursor ℝ,
      updateMouseColumnData Real.pi (fun y x => Complex.arg ⟨x, y⟩)
        (fun x y => √(x ^ 2 + y ^ 2)) 200 200 500 ⟨(100, 50), false, 0, 0⟩ = some w' ∧
      w'._containsMouse = false := by
  refine ⟨?_, (real_twelve_oclock 500 false 0 0).1, ?_, ?_⟩
  · intro width height maxD w h
    exact ⟨_, real_update_inside width height maxD w (not_lt.mpr h), rfl⟩
  · rw [Real.sqrt_le_iff]
    norm_num
  · exact ⟨_, (real_twelve_oclock 500 false 0 0).2, rfl⟩

/-- C13: when the norm of `delta` computed by `hypotf` exceeds 1, in a view
with non-zero sides, the resolver succeeds, sets `_containsMouse = false` and
leaves `_mouseSampleAngle`, `_mouseSampleDistance` and `_mousePos` as they
were. -/
theorem C13_outside_disc (pi : α) (atan2f hypotf : α → α → α) (width height maxD : α)
    (w : Cursor α) (_hview : min width height ≠ 0)
    (h : 1 < hypotf (delta width height w._mousePos).1 (delta width height w._mousePos).2) :
    ∃ w' : Cursor α,
      updateMouseColumnData pi atan2f hypotf width height maxD w = some w' ∧
      w'._containsMouse = false ∧ w'._mouseSampleAngle = w._mouseSampleAngle ∧
      w'._mouseSampleDistance = w._mouseSampleDistance ∧ w'._mousePos = w._mousePos := by
  refine ⟨{ w with _containsMouse := false }, ?_, rfl, rfl, rfl, rfl⟩
  unfold updateMouseColumnData
  simp only [gt_iff_lt]
  rw [if_pos h]

/-- C13 witness: scenario S4, a 200 × 200 view with the cursor at `(10, 10)`,
where `delta = (-9/10, -9/10)`, after an earlier report of 37 degrees. -/
theorem C13_witness :
    min (200 : ℝ) 200 ≠ 0 ∧
    delta (200 : ℝ) 200 ((10, 10) : ℝ × ℝ) = (-(9 / 10), -(9 / 10)) ∧
    ∃ w' : Cursor ℝ,
      updateMouseColumnData Real.pi (fun y x => Complex.arg ⟨x, y⟩)
        (fun x y => √(x ^ 2 + y ^ 2)) 200 200 500 ⟨(10, 10), true, 37, 5⟩ = some w' ∧
      w'._containsMouse = false ∧ w'._mouseSampleAngle = 37 ∧
      w'._mouseSampleDistance = 5 ∧ w'._mousePos = (10, 10) := by
  have hdel : delta (200 : ℝ) 200 ((10, 10) : ℝ × ℝ) = (-(9 / 10), -(9 / 10)) := by
    unfold delta
    norm_num
  have hout : 1 < √((delta (200 : ℝ) 200 (⟨(10, 10), true, 37, 5⟩ : Cursor ℝ)._mousePos).1 ^ 2
      + (delta (200 : ℝ) 200 (⟨(10, 10), true, 37, 5⟩ : Cursor ℝ)._mousePos).2 ^ 2) := by
    simp only [hdel]
    rw [Real.lt_sqrt (by norm_num)]
    norm_num
  exact ⟨by norm_num, hdel,
    C13_outside_disc Real.pi (fun y x => Complex.arg ⟨x, y⟩) (fun x y => √(x ^ 2 + y ^ 2))
      200 200 500 ⟨(10, 10), true, 37, 5⟩ (by norm_num) hout⟩

/-- C14: after `clear`, from any state, every pixel is transparent, the ring
has 400 entries that are all 0 and `_maxDistance = 0`, and a second `clear`
changes nothing: `clear (clear s) = clear s`. -/
theorem C14_clear_resets_and_is_idempotent (s : State α) :
    (∀ x y, (clear s)._image x y = transparent) ∧
    (clear s)._distances.length = 400 ∧ (∀ d ∈ (clear s)._distances, d = 0) ∧
    (clear s)._maxDistance = 0 ∧ clear (clear s) = clear s := by
  refine ⟨fun _ _ => rfl, ?_, ?_, rfl, rfl⟩
  · simp only [clear, List.length_replicate]
  · intro d hd
    simp only [clear] at hd
    exact List.eq_of_mem_replicate hd

/-- C15 (as amended): for a non-empty `points` of length `P` (an `int`) and a
radius `i ∈ [1, R/2)`, the index `static_cast<int>(i * linearFactor - 1)` that
`draw` reads, with `linearFactor`, the product and the difference rounded to
binary32, is defined and lies in `[0, P − 1]`, and `points` has an element
there. -/
theorem C15_sample_index_is_valid (points : List α) (i : Nat) (hp : points ≠ [])
    (hP : points.length ≤ 2147483647) (hi1 : 1 ≤ i) (hi2 : i < center) :
    ∃ j : Int, sampleIndex points i = some j ∧ 0 ≤ j ∧ j ≤ (points.length : Int) - 1 ∧
      ∃ p, points[j.toNat]? = some p := by
  obtain ⟨j, hj, hj0, hjP⟩ := sampleIndex_bounds hp hP hi1 hi2
  have hlt : j.toNat < points.length := by omega
  exact ⟨j, hj, hj0, by omega, _, List.getElem?_eq_getElem hlt⟩

/-- C15 witness: 14 samples, read at the radius 625. -/
theorem C15_witness :
    List.replicate 14 (1 : ℚ) ≠ [] ∧ 1 ≤ 625 ∧ 625 < center ∧
    ∃ j : Int, sampleIndex (List.replicate 14 (1 : ℚ)) 625 = some j ∧ 0 ≤ j ∧
      j ≤ ((List.replicate 14 (1 : ℚ)).length : Int) - 1 ∧
      ∃ p, (List.replicate 14 (1 : ℚ))[j.toNat]? = some p :=
  ⟨by simp, by norm_num, by norm_num [center],
    C15_sample_index_is_valid (List.replicate 14 (1 : ℚ)) 625 (by simp)
      (by rw [List.length_replicate]; norm_num) (by norm_num) (by norm_num [center])⟩

/-- C15 (as stated) fails: with 14 samples and the radius 625,
`linearFactor = fl(14/1250) = 12025908 / 2^30` is below `14/1250`, the product
`625 · linearFactor` rounds to `14680063 / 2^21 = 6.9999995…`, and the index
read is 5, while `⌊625 · 14 / 1250⌋ − 1` clamped to `[0, 13]` is 6. -/
theorem C15_counterexample :
    List.replicate 14 (1 : ℚ) ≠ [] ∧ 1 ≤ 625 ∧ 625 < center ∧
    sampleIndex (List.replicate 14 (1 : ℚ)) 625 = some 5 ∧
    specSampleIndex (List.replicate 14 (1 : ℚ)) 625 = 6 ∧
    sampleIndex (List.replicate 14 (1 : ℚ)) 625
      ≠ some (specSampleIndex (List.replicate 14 (1 : ℚ)) 625) := by
  refine ⟨by simp, by norm_num, by norm_num [center], sampleIndex_14_625,
    specSampleIndex_14_625, ?_⟩
  rw [sampleIndex_14_625, specSampleIndex_14_625]
  decide

/-- C17 on the code: for the angle `-1`, whose truncation `-1` fits in `int`,
the index `static_cast<int>(angle) % 400` is `-1`, outside `[0, 400)`: the ring
write of line 83 is out of bounds whatever the ring, and `draw` is undefined. -/
theorem C17_negative_angle_index_out_of_bounds :
    castInt (-1 : ℝ) = some (-1) ∧ Int.tmod (-1) _angularResolution = -1 ∧
    (∀ (distances : List ℝ) (value : ℝ), setDistance distances (-1) value = none) ∧
    draw Real.pi Real.cos Real.sin whiteMapper [1] (-1) 0 1000 (1 / 2) (init : State ℝ)
      = none := by
  have hc : ⌈(-1 : ℝ)⌉ = -1 := by
    rw [Int.ceil_eq_iff]
    norm_num
  have hcast : castInt (-1 : ℝ) = some (-1) := by
    rw [castInt_of_neg (by norm_num) (by rw [hc]; norm_num), hc]
  have hmod : Int.tmod (-1) _angularResolution = -1 := by decide
  have hset : ∀ (distances : List ℝ) (value : ℝ), setDistance distances (-1) value = none := by
    intro distances value
    unfold setDistance
    rw [hcast]
    simp only [hmod]
    rw [if_neg]
    intro h
    exact absurd h.1 (by norm_num)
  refine ⟨hcast, hmod, hset, ?_⟩
  unfold draw
  rw [hset]

/-- C18: with a cosine and sine in `[-1, 1]`, for every radius `i` with
`1 ≤ i < R/2` and every angle `θ`, the conversions of `1250 + i cos θ` and
`1250 + i sin θ` to `int` are defined and lie in `[1, 2499]`, so that
`setPixelColor` writes inside the raster; this holds for every pixel write of a
`draw`, whatever its arguments. -/
theorem C18_pixel_writes_inside_raster (pi : α) (cos sin : α → α) (valueToRGB : α → QColor)
    (points : List α) (angle length angleGrad maxD : α)
    (hcos : ∀ x, |cos x| ≤ 1) (hsin : ∀ x, |sin x| ≤ 1) :
    (∀ (i : Nat) (θ : α), 1 ≤ i → i < center →
      ∃ x y : Int, castInt ((center : α) + (i : α) * cos θ) = some x ∧
        castInt ((center : α) + (i : α) * sin θ) = some y ∧
        1 ≤ x ∧ x ≤ 2499 ∧ 1 ≤ y ∧ y ≤ 2499 ∧
        0 ≤ x ∧ x < imageSize ∧ 0 ≤ y ∧ y < imageSize) ∧
    ∀ (u v : Int) (c : QColor),
      Written pi cos sin valueToRGB points angle length angleGrad maxD u v c →
      1 ≤ u ∧ u ≤ 2499 ∧ 1 ≤ v ∧ v ≤ 2499 := by
  have key : ∀ (i : Nat) (θ : α), 1 ≤ i → i < center →
      ∃ x y : Int, castInt ((center : α) + (i : α) * cos θ) = some x ∧
        castInt ((center : α) + (i : α) * sin θ) = some y ∧
        1 ≤ x ∧ x ≤ 2499 ∧ 1 ≤ y ∧ y ≤ 2499 ∧
        0 ≤ x ∧ x < imageSize ∧ 0 ≤ y ∧ y < imageSize := by
    intro i θ hi1 hi2
    obtain ⟨hx, hx1, hx2⟩ := pixel_cast (hcos θ) hi1 hi2
    obtain ⟨hy, hy1, hy2⟩ := pixel_cast (hsin θ) hi1 hi2
    refine ⟨_, _, hx, hy, hx1, hx2, hy1, hy2, by omega, ?_, by omega, ?_⟩
    · simp only [imageSize]
      omega
    · simp only [imageSize]
      omega
  refine ⟨key, ?_⟩
  rintro u v c ⟨i, k, hi1, hi2, -, -, hu, hv⟩
  obtain ⟨x, y, hx, hy, hx1, hx2, hy1, hy2, -⟩ := key i (angleStep pi angle angleGrad i k) hi1 hi2
  rw [hx, Option.some.injEq] at hu
  rw [hy, Option.some.injEq] at hv
  rw [← hu, ← hv]
  exact ⟨hx1, hx2, hy1, hy2⟩

/-- C18 witness: the true cosine and sine, at the outermost radius 1249 and the
angle `π`, where the `x` coordinate is the smallest one, 1. -/
theorem C18_witness :
    1 ≤ 1249 ∧ 1249 < center ∧
    ∃ x y : Int, castInt ((center : ℝ) + ((1249 : Nat) : ℝ) * Real.cos Real.pi) = some x ∧
      castInt ((center : ℝ) + ((1249 : Nat) : ℝ) * Real.sin Real.pi) = some y ∧
      1 ≤ x ∧ x ≤ 2499 ∧ 1 ≤ y ∧ y ≤ 2499 ∧
      0 ≤ x ∧ x < imageSize ∧ 0 ≤ y ∧ y < imageSize :=
  ⟨by norm_num, by norm_num [center],
    (C18_pixel_writes_inside_raster Real.pi Real.cos Real.sin whiteMapper [1] 0 1000 (1 / 2)
      1000 Real.abs_cos_le_one Real.abs_sin_le_one).1 1249 Real.pi (by norm_num)
      (by norm_num [center])⟩

/-- C19: for a `points` of length `P ≥ 2`, written `l ++ [a]` with `l`
non-empty, and a radius `i ∈ [1, R/2)`, the index read by `draw` is defined and
at most `P − 2`, so it falls in `l`; the colour of the radius and the whole
result of `draw` do not depend on the last sample `a`. -/
theorem C19_last_sample_never_read (pi : α) (cos sin : α → α) (valueToRGB : α → QColor)
    (l : List α) (a b : α) (angle initPoint length angleGrad : α) (s : State α)
    (hl : l ≠ []) (hP : (l ++ [a]).length ≤ 2147483647) :
    (∀ i : Nat, 1 ≤ i → i < center →
      ∃ j : Int, sampleIndex (l ++ [a]) i = some j ∧ 0 ≤ j ∧
        j ≤ ((l ++ [a]).length : Int) - 2 ∧ j < l.length ∧
        ∀ maxD, pointColor valueToRGB (l ++ [a]) length maxD i
          = pointColor valueToRGB (l ++ [b]) length maxD i) ∧
    draw pi cos sin valueToRGB (l ++ [a]) angle initPoint length angleGrad s
      = draw pi cos sin valueToRGB (l ++ [b]) angle initPoint length angleGrad s := by
  have hlen : 0 < l.length := List.length_pos.mpr hl
  constructor
  · intro i hi1 hi2
    have hne : l ++ [a] ≠ [] := by simp
    obtain ⟨j, h1, h2, -⟩ := sampleIndex_bounds hne hP hi1 hi2
    have h2len : 2 ≤ (l ++ [a]).length := by
      simp only [List.length_append, List.length_singleton]
      omega
    have h5 := sampleIndex_le_of_some h2len hi2 h1
    refine ⟨j, h1, h2, h5, ?_, fun maxD => pointColor_append valueToRGB l a b length maxD hl hi2⟩
    simp only [List.length_append, List.length_singleton] at h5
    omega
  · unfold draw
    simp only [paint_append pi cos sin valueToRGB l a b angle length angleGrad _ _ hl]

/-- C19 witness: three samples over the reals; changing the last one from 3
to 7 changes nothing. -/
theorem C19_witness :
    ([1, 2] : List ℝ) ≠ [] ∧
    draw Real.pi Real.cos Real.sin whiteMapper ([1, 2] ++ [3]) 0 0 1000 (1 / 2) (init : State ℝ)
      = draw Real.pi Real.cos Real.sin whiteMapper ([1, 2] ++ [7]) 0 0 1000 (1 / 2) init :=
  ⟨by simp,
    (C19_last_sample_never_read Real.pi Real.cos Real.sin whiteMapper [1, 2] 3 7 0 0 1000
      (1 / 2) init (by simp) (by simp)).2⟩

/-- C20: with `π ≥ 0`, a successful `draw` with `angleGrad ≤ 0` has
`step(i) ≤ 0` at every radius and writes no pixel: the image is the one it was,
while the ring bin is written and `_maxDistance` is updated from the new
maximum of the ring as in any draw. -/
theorem C20_no_pixel_for_nonpositive_width (pi : α) (cos sin : α → α)
    (valueToRGB : α → QColor) (points : List α) (angle initPoint length angleGrad : α)
    (s s' : State α) (hpi : 0 ≤ pi) (hw : angleGrad ≤ 0)
    (h : draw pi cos sin valueToRGB points angle initPoint length angleGrad s = some s') :
    (∀ i, step pi angleGrad i ≤ 0) ∧ s'._image = s._image ∧
    (∀ u v c,
      ¬ Written pi cos sin valueToRGB points angle length angleGrad s'._maxDistance u v c) ∧
    setDistance s._distances angle (initPoint + length) = some s'._distances ∧
    ∃ m, maxElement s'._distances = some m ∧
      s'._maxDistance = updateMaxDistance m s._maxDistance := by
  have hs : ∀ i, step pi angleGrad i ≤ 0 := step_nonpos hpi hw
  obtain ⟨m, h1, h2, h3, hp⟩ := draw_eq_some h
  refine ⟨hs, paint_no_step hs hp, ?_, h1, m, h2, h3⟩
  rintro u v c ⟨i, k, -, -, hk, -⟩
  have := hs i
  have hk0 : (0 : Int) ≤ (k : Int) := Int.natCast_nonneg k
  omega

/-- C20 witness: a draw of width 0 at angle 0 on the constructed state, over
the reals. -/
theorem C20_witness :
    (0 : ℝ) ≤ Real.pi ∧ (0 : ℝ) ≤ 0 ∧
    ∃ s' : State ℝ,
      draw Real.pi Real.cos Real.sin whiteMapper [1] 0 0 1000 0 init = some s' ∧
      s'._image = (init : State ℝ)._image ∧
      setDistance (init : State ℝ)._distances 0 (0 + 1000) = some s'._distances ∧
      s'._maxDistance = 1000 := by
  obtain ⟨s', h⟩ := real_draw_isSome whiteMapper [1] 0 0 1000 0 init
    (by simp only [init, List.length_replicate]) (le_refl 0) (by simp) (by simp) (by simp)
    (by norm_num)
  obtain ⟨-, himg, -, hset, -⟩ := C20_no_pixel_for_nonpositive_width Real.pi Real.cos Real.sin
    whiteMapper [1] 0 0 1000 0 init s' Real.pi_pos.le (le_refl 0) h
  obtain ⟨-, -, hm⟩ := draw_bin_zero init_distances (by norm_num) h
  refine ⟨Real.pi_pos.le, le_refl 0, s', h, himg, hset, ?_⟩
  rw [hm, zero_add]
  simp only [init]
  exact updateMaxDistance_1000_0

end Claims

end PolarPlot
